import Mathlib

/-!
Verification of the TMHMM-Utility-Suite core logic.

Shallow embedding of `src/tmhmm_filter.py`, the pure core of
`src/tmhmm_cli.py`, and the FASTA reading / duplicate-detection logic of
`src/streamlit_merge_fasta.py`.  Python strings are modelled as `String`
(with `List Char` used internally), Python `int` as `Int` (digit runs are
parsed to `Nat` and injected), `None`-able values as `Option`, Python dicts
and `OrderedDict`s as insertion-ordered association lists, and the
`IndexError` that `flush_record` can raise as `Except String`.

The Python character classes are modelled as follows.  The whitespace set
of `str.isspace`/`str.strip` (and hence the regex class `\S`) and the
line-boundary set of `str.splitlines` are embedded in full.  The regex word
class `\w` (used by the `\b` assertion) and digit class `\d` are embedded
on their ASCII restrictions, on which they coincide exactly with CPython's
Unicode classes; beyond ASCII CPython's `\w` and `\d` also match Unicode
letters and decimal digits, which this embedding does not model.  The
positive direction of the theorem about `TMHMM_LINE_PATTERN` is therefore
stated for lines of ASCII text; its no-match direction depends only on the
absence of the literal `PredHel=` and is stated for arbitrary text.
-/

set_option maxHeartbeats 1000000

namespace TMSuite

/-- Characters stripped by Python `str.strip()` with no arguments, i.e. the
characters for which `str.isspace()` holds: ASCII whitespace, the
file/group/record/unit separators, NEL, NBSP and the Unicode space
separators. -/
def pyIsSpace (c : Char) : Bool :=
  c = ' ' || c = '\t' || c = '\n' || c = '\r' ||
  c = '\x0b' || c = '\x0c' ||
  ('\x1c' ≤ c && c ≤ '\x1f') ||
  c = '\x85' || c = '\xa0' || c = '\u1680' ||
  ('\u2000' ≤ c && c ≤ '\u200a') ||
  c = '\u2028' || c = '\u2029' || c = '\u202f' || c = '\u205f' || c = '\u3000'

/-- Line boundaries recognised by Python `str.splitlines()`:
LF, CR (CRLF counts as one boundary), VT, FF, FS, GS, RS, NEL, LINE
SEPARATOR and PARAGRAPH SEPARATOR. -/
def isLineBoundary (c : Char) : Bool :=
  c = '\n' || c = '\r' || c = '\x0b' || c = '\x0c' ||
  c = '\x1c' || c = '\x1d' || c = '\x1e' ||
  c = '\x85' || c = '\u2028' || c = '\u2029'

/-- The ASCII restriction of the regex word class `\w`, used by the
word-boundary assertion `\b`: on ASCII characters CPython's Unicode `\w`
is exactly `[a-zA-Z0-9_]`, i.e. `Char.isAlphanum || c = '_'`.  Beyond
ASCII, CPython's `\w` also matches Unicode letters and digits, which this
predicate does not: the theorem using it is stated for ASCII lines, on
which this predicate and CPython's class coincide. -/
def asciiWordChar (c : Char) : Bool := c.isAlphanum || c = '_'

/-- Drop the LF of every CRLF pair, so that the two-character CRLF
boundary becomes the one-character boundary CR; `str.splitlines` treats
the pair as a single line break.  The flag records whether the previous
kept character was a CR whose immediately following LF must be skipped. -/
def normCRLF : List Char → Bool → List Char
  | [], _ => []
  | c :: rest, afterCR =>
    if afterCR && c = '\n' then normCRLF rest false
    else if c = '\r' then '\r' :: normCRLF rest true
    else c :: normCRLF rest false

/-- Cut a CRLF-normalised character list at every line-boundary character.
`acc` holds the current line reversed.  A trailing boundary produces no
final empty line, exactly as in `str.splitlines`. -/
def splitBoundary : List Char → List Char → List (List Char)
  | [], acc => if acc = [] then [] else [acc.reverse]
  | c :: rest, acc =>
    if isLineBoundary c then acc.reverse :: splitBoundary rest []
    else splitBoundary rest (c :: acc)

/-- Python `str.splitlines()` on a character list. -/
def pySplitlines (cs : List Char) : List (List Char) :=
  splitBoundary (normCRLF cs false) []

/-- Python `str.strip()` with no arguments: whitespace dropped from both
ends. -/
def stripL (cs : List Char) : List Char :=
  ((cs.dropWhile pyIsSpace).reverse.dropWhile pyIsSpace).reverse

/-- The leading whitespace-delimited token of a Python string, i.e.
`s.split()[0]` when it exists: skip leading whitespace, then take the
maximal run of non-whitespace.  The result is `[]` exactly when
`s.split()` is the empty list (all-whitespace input), in which case
`s.split()[0]` raises `IndexError`. -/
def firstTok (cs : List Char) : List Char :=
  (cs.dropWhile pyIsSpace).takeWhile (fun c => !pyIsSpace c)

/-- `"".join(chunks)`. -/
def joinL : List (List Char) → List Char
  | [] => []
  | l :: ls => l ++ joinL ls

/-- `.replace(" ", "").replace("\r", "")` on the joined sequence chunks. -/
def removeSpaceCR (cs : List Char) : List Char :=
  cs.filter (fun c => !(c = ' ' || c = '\r'))

/-- Assignment `d[k] = v` on a Python `dict` / `OrderedDict` represented as
an insertion-ordered association list: an existing key keeps its position
and receives the new value, a new key is appended at the end. -/
def odInsert (l : List (String × α)) (k : String) (v : α) : List (String × α) :=
  if l.any (fun p => p.1 == k) then
    l.map (fun p => if p.1 == k then (k, v) else p)
  else l ++ [(k, v)]

/-- Container for a FASTA entry (`tmhmm_filter.FastaRecord`). -/
structure FastaRecord where
  identifier : String
  header : String
  sequence : String
deriving DecidableEq, Repr

/-- Why one record was excluded (`tmhmm_filter.RemovalDetail`). -/
structure RemovalDetail where
  record : FastaRecord
  reason : String
  predhel : Option Int
  length : Nat
deriving DecidableEq, Repr

/-- Result of a filtering run (`tmhmm_filter.FilterResult`). -/
structure FilterResult where
  kept : List (String × FastaRecord)
  removed : List (String × RemovalDetail)
  missing_predictions : List String
deriving DecidableEq, Repr

/-- The message of the `IndexError` that `header.split()[0]` raises on a
header with no token. -/
def indexErrorMsg : String := "IndexError: list index out of range"

/-- `flush_record` of `parse_fasta_text`: with no pending header do
nothing; otherwise the identifier is `header.split()[0]` (an `IndexError`
when the header is empty or all-whitespace), the sequence is the joined
chunks with every space and carriage return removed, and the record is
stored under the identifier. -/
def flushRecord (records : List (String × FastaRecord)) (header : Option (List Char))
    (chunks : List (List Char)) : Except String (List (String × FastaRecord)) :=
  match header with
  | none => .ok records
  | some h =>
    match firstTok h with
    | [] => .error indexErrorMsg
    | c :: ts =>
      .ok (odInsert records (String.mk (c :: ts))
        ⟨String.mk (c :: ts), String.mk h, String.mk (removeSpaceCR (joinL chunks))⟩)

/-- The `parse_fasta_text` loop over `text.splitlines()`: empty lines are
skipped, a line starting with `>` flushes the pending record and starts a
new header (the text after `>`, stripped), and any other line is stripped
and appended to the sequence chunks. -/
def parseFastaLines : List (List Char) → List (String × FastaRecord) →
    Option (List Char) → List (List Char) → Except String (List (String × FastaRecord))
  | [], records, header, chunks => flushRecord records header chunks
  | line :: rest, records, header, chunks =>
    if line = [] then parseFastaLines rest records header chunks
    else if line.head? = some '>' then
      match flushRecord records header chunks with
      | .error e => .error e
      | .ok records2 => parseFastaLines rest records2 (some (stripL (line.drop 1))) []
    else parseFastaLines rest records header (chunks ++ [stripL line])

/-- `tmhmm_filter.parse_fasta_text`. -/
def parse_fasta_text (text : String) : Except String (List (String × FastaRecord)) :=
  parseFastaLines (pySplitlines text.data) [] none []

/-- A line produced by `splitlines` contains no line-boundary character. -/
def lineClean (l : List Char) : Prop := ∀ c ∈ l, isLineBoundary c = false

/-- The invariants `parse_fasta_text` guarantees for every stored pair:
the mapping key is the record's identifier, the identifier is the first
token of the header and non-empty, and the header is stripped and free of
line boundaries. -/
def GoodPair (p : String × FastaRecord) : Prop :=
  p.2.identifier = p.1 ∧
  p.1.data = firstTok p.2.header.data ∧
  p.1.data ≠ [] ∧
  stripL p.2.header.data = p.2.header.data ∧
  lineClean p.2.header.data

/-- The association-list pair `parse_fasta_text` stores for a record. -/
def pairOf (r : FastaRecord) : String × FastaRecord := (r.identifier, r)

/-- The conditions under which one record formats back to itself: its
header is stripped, boundary-free, and has the identifier as first token,
and its sequence consists only of non-whitespace characters other than
`>` (the amended round-trip hypothesis). -/
def RecGood (r : FastaRecord) : Prop :=
  stripL r.header.data = r.header.data ∧ lineClean r.header.data ∧
  firstTok r.header.data = r.identifier.data ∧ r.identifier.data ≠ [] ∧
  (∀ c ∈ r.sequence.data, pyIsSpace c = false ∧ c ≠ '>')

/-- The characters of the literal `PredHel=` in
`TMHMM_LINE_PATTERN = ^(?P<id>\S+).*?\bPredHel=(?P<count>\d+)`. -/
def predHelLit : List Char := ['P', 'r', 'e', 'd', 'H', 'e', 'l', '=']

/-- Does the pattern tail `\bPredHel=\d` match at position `idx` of the
line?  `idx` must be at least 1 (the `(?P<id>\S+)` group consumes at least
one character before `.*?` starts), the character just before `idx` must
not be a word character (the `\b` assertion; the following `P` is a word
character), the literal must follow, then at least one digit.  The word
class `\w` and the digit class `\d` are taken on their ASCII restrictions
(`asciiWordChar`, `Char.isDigit`), on which they agree exactly with
CPython's Unicode classes; the theorem built on this predicate is
accordingly stated for ASCII lines. -/
def predHelOccB (cs : List Char) (idx : Nat) : Bool :=
  decide (1 ≤ idx) &&
  (match cs.drop (idx - 1) with
   | [] => false
   | c :: rest =>
     !asciiWordChar c && predHelLit.isPrefixOf rest &&
       (match rest.drop 8 with
        | [] => false
        | d :: _ => d.isDigit))

/-- The value of the greedy `(?P<count>\d+)` group starting at `pos`:
the maximal digit run read as a decimal number (Python `int(...)`).
`\d` is taken on its ASCII restriction `Char.isDigit`, exact for ASCII
lines (CPython's `\d` also matches non-ASCII Unicode decimal digits). -/
def digitsValAt (cs : List Char) (pos : Nat) : Nat :=
  ((cs.drop pos).takeWhile Char.isDigit).foldl (fun a c => 10 * a + (c.toNat - 48)) 0

/-- The lazy `.*?` step of the backtracking search: the least position
`idx ≥ k` at which `\bPredHel=\d` matches, if any. -/
def findPredHel (cs : List Char) (k : Nat) : Option Nat :=
  (List.range cs.length).find? (fun idx => decide (k ≤ idx) && predHelOccB cs idx)

/-- The leading maximal non-whitespace run of a line, the longest text the
greedy anchored `(?P<id>\S+)` group can capture. -/
def leadTok (cs : List Char) : List Char :=
  cs.takeWhile (fun c => !pyIsSpace c)

/-- `re.search` of `TMHMM_LINE_PATTERN` on one line, as the backtracking
engine runs it: the anchored greedy `(?P<id>\S+)` tries the longest
non-whitespace prefix first and backtracks one character at a time, and for
each choice the lazy `.*?` yields the least matching position.  Returns the
captured identifier and the integer value of the captured digit run. -/
def tmhmmLineMatch (cs : List Char) : Option (List Char × Nat) :=
  (List.range (leadTok cs).length).findSome? (fun i =>
    (findPredHel cs ((leadTok cs).length - i)).map
      (fun idx => (cs.take ((leadTok cs).length - i), digitsValAt cs (idx + 8))))

/-- `tmhmm_filter.parse_tmhmm_text`: per line, a match of
`TMHMM_LINE_PATTERN` stores `int(count)` under the captured identifier
(later lines overwrite earlier ones). -/
def parse_tmhmm_text (text : String) : List (String × Int) :=
  (pySplitlines text.data).foldl
    (fun preds line =>
      match tmhmmLineMatch line with
      | none => preds
      | some (id, n) => odInsert preds (String.mk id) (Int.ofNat n)) []

/-- `predhel is None or predhel <= max_predhel` for one identifier
(`tmhmm_predictions.get(identifier)` is the association-list lookup). -/
def predhelOkB (tm : List (String × Int)) (max_predhel : Int) (id : String) : Bool :=
  match tm.lookup id with
  | none => true
  | some p => decide (p ≤ max_predhel)

/-- `max_length is None or length < max_length`. -/
def lengthOkB (max_length : Option Int) (len : Nat) : Bool :=
  match max_length with
  | none => true
  | some m => decide ((len : Int) < m)

/-- `", ".join(parts)`. -/
def joinComma : List String → String
  | [] => ""
  | [s] => s
  | s :: t :: rest => s ++ ", " ++ joinComma (t :: rest)

/-- The `reasons` list and its join from `filter_records`:
`PredHel>{max_predhel}` when the PredHel check failed, then
`Length≥{max_length}` when the length check failed and `max_length` is
present, joined by `", "`, with the defensive fallback `"Filtered"` for an
empty list. -/
def removalReason (max_predhel : Int) (max_length : Option Int)
    (predhel_ok length_ok : Bool) : String :=
  let reasons :=
    (if predhel_ok then [] else ["PredHel>" ++ toString max_predhel]) ++
    (match max_length with
     | none => []
     | some m => if length_ok then [] else ["Length≥" ++ toString m])
  if reasons = [] then "Filtered" else joinComma reasons

/-- The `RemovalDetail(record=..., reason=..., predhel=..., length=...)`
built for an excluded record. -/
def mkRemoval (tm : List (String × Int)) (max_predhel : Int) (max_length : Option Int)
    (id : String) (record : FastaRecord) : RemovalDetail :=
  ⟨record,
   removalReason max_predhel max_length (predhelOkB tm max_predhel id)
     (lengthOkB max_length record.sequence.length),
   tm.lookup id, record.sequence.length⟩

/-- `missing.append(identifier)` when the identifier has no prediction. -/
def missUpd (tm : List (String × Int)) (missing : List String) (id : String) : List String :=
  if tm.lookup id = none then missing ++ [id] else missing

/-- The loop of `filter_records` over the FASTA collection, with the three
accumulators `kept`, `removed` and `missing`. -/
def filterGo (tm : List (String × Int)) (max_predhel : Int) (max_length : Option Int) :
    List (String × FastaRecord) → List (String × FastaRecord) →
    List (String × RemovalDetail) → List String → FilterResult
  | [], kept, removed, missing => ⟨kept, removed, missing⟩
  | (id, record) :: rest, kept, removed, missing =>
    if predhelOkB tm max_predhel id && lengthOkB max_length record.sequence.length then
      filterGo tm max_predhel max_length rest
        (odInsert kept id record) removed (missUpd tm missing id)
    else
      filterGo tm max_predhel max_length rest kept
        (odInsert removed id (mkRemoval tm max_predhel max_length id record))
        (missUpd tm missing id)

/-- `tmhmm_filter.filter_records`. -/
def filter_records (fasta : List (String × FastaRecord)) (tm : List (String × Int))
    (max_predhel : Int) (max_length : Option Int) : FilterResult :=
  filterGo tm max_predhel max_length fasta [] [] []

/-- The combined keep decision of `filter_records` for one entry:
`predhel_ok and length_ok`. -/
def passesB (tm : List (String × Int)) (max_predhel : Int) (max_length : Option Int)
    (p : String × FastaRecord) : Bool :=
  predhelOkB tm max_predhel p.1 && lengthOkB max_length p.2.sequence.length

/-- The `removed` entry `filter_records` builds for one excluded record. -/
def removalPair (tm : List (String × Int)) (max_predhel : Int) (max_length : Option Int)
    (p : String × FastaRecord) : String × RemovalDetail :=
  (p.1, mkRemoval tm max_predhel max_length p.1 p.2)

/-- `FASTA_LINE_WRAP = 60`. -/
def FASTA_LINE_WRAP : Nat := 60

/-- The slicing loop `for start in range(0, len(seq), 60)`: successive
slices `seq[start : start+60]`.  The `Nat` argument is fuel bounded below
by the list length (each step consumes at least one character), so the
middle case is never reached on `wrapSeq`. -/
def wrapChunks : Nat → List Char → List (List Char)
  | _, [] => []
  | 0, _ :: _ => []
  | n + 1, c :: rest =>
    ((c :: rest).take FASTA_LINE_WRAP) :: wrapChunks n ((c :: rest).drop FASTA_LINE_WRAP)

/-- The sequence lines emitted by `format_fasta` for one sequence. -/
def wrapSeq (cs : List Char) : List (List Char) := wrapChunks cs.length cs

/-- The lines `format_fasta` emits for one record: `>` followed by the
header, then the wrapped sequence slices. -/
def recordLines (r : FastaRecord) : List (List Char) :=
  ('>' :: r.header.data) :: wrapSeq r.sequence.data

/-- All lines `format_fasta` emits for a record list. -/
def flatLines : List FastaRecord → List (List Char)
  | [] => []
  | r :: rs => recordLines r ++ flatLines rs

/-- `"\n".join(lines) + ("\n" if lines else "")`: each line followed by one
newline; the empty line list yields the empty string. -/
def joinNL : List (List Char) → List Char
  | [] => []
  | l :: ls => l ++ '\n' :: joinNL ls

/-- `tmhmm_filter.format_fasta`. -/
def format_fasta (records : List FastaRecord) : String :=
  String.mk (joinNL (flatLines records))

/-- The keep decision of `filter_by_length_only` for one entry. -/
def lenPassB (max_length : Int) (p : String × FastaRecord) : Bool :=
  decide ((p.2.sequence.length : Int) < max_length)

/-- The `removed` entry `filter_by_length_only` builds for one excluded
record. -/
def lenRemovalPair (max_length : Int) (p : String × FastaRecord) : String × RemovalDetail :=
  (p.1, ⟨p.2, "Length≥" ++ toString max_length, none, p.2.sequence.length⟩)

/-- The loop of `filter_by_length_only`. -/
def lengthOnlyGo (max_length : Int) : List (String × FastaRecord) →
    List (String × FastaRecord) → List (String × RemovalDetail) → FilterResult
  | [], kept, removed => ⟨kept, removed, []⟩
  | (id, record) :: rest, kept, removed =>
    if decide ((record.sequence.length : Int) < max_length) then
      lengthOnlyGo max_length rest (odInsert kept id record) removed
    else
      lengthOnlyGo max_length rest kept
        (odInsert removed id
          ⟨record, "Length≥" ++ toString max_length, none, record.sequence.length⟩)

/-- `tmhmm_filter.filter_by_length_only`. -/
def filter_by_length_only (fasta : List (String × FastaRecord)) (max_length : Int) :
    FilterResult :=
  lengthOnlyGo max_length fasta [] []

/-- The normalisation in `tmhmm_cli.main`:
`args.max_length if args.max_length and args.max_length > 0 else None`
(0 is falsy; a non-positive value is likewise disabled). -/
def normalizeMaxLength (n : Int) : Option Int :=
  if n = 0 then none else if 0 < n then some n else none

/-- The filter result computed by `tmhmm_cli.main` from parsed inputs. -/
def cliResult (fasta : List (String × FastaRecord)) (tm : List (String × Int))
    (max_predhel : Int) (max_length_arg : Int) : FilterResult :=
  filter_records fasta tm max_predhel (normalizeMaxLength max_length_arg)

/-- The lines `tmhmm_cli.main` prints to standard output, in order:
the three counters, the output path, the length-filter status line, and
the missing-predictions warning only when some predictions were missing. -/
def cliOutput (fasta : List (String × FastaRecord)) (tm : List (String × Int))
    (max_predhel : Int) (max_length_arg : Int) (output_path : String) : List String :=
  ["Total FASTA sequences: " ++ toString fasta.length,
   "Sequences removed: " ++ toString (cliResult fasta tm max_predhel max_length_arg).removed.length,
   "Sequences kept: " ++ toString (cliResult fasta tm max_predhel max_length_arg).kept.length,
   "Output written to: " ++ output_path] ++
  (match normalizeMaxLength max_length_arg with
   | some m => ["Length filter applied: keep length < " ++ toString m ++ " amino acids."]
   | none => ["Length filter disabled."]) ++
  (if (cliResult fasta tm max_predhel max_length_arg).missing_predictions = [] then []
   else ["Warning: " ++
     toString (cliResult fasta tm max_predhel max_length_arg).missing_predictions.length ++
     " sequences lacked TMHMM predictions and were kept."])

/-- `read_fasta` of `streamlit_merge_fasta.py`: the header keeps the full
line including the leading `>`; sequence lines are stripped and
concatenated; a pair is emitted when a new header line arrives or at end
of input, but only when a header is pending (the initial empty header is
falsy, so content before the first `>` line is dropped). -/
def readFastaGo : List (List Char) → List Char → List Char → List (String × String)
  | [], header, seq => if header = [] then [] else [(String.mk header, String.mk seq)]
  | line :: rest, header, seq =>
    if line.head? = some '>' then
      if header = [] then readFastaGo rest line []
      else (String.mk header, String.mk seq) :: readFastaGo rest line []
    else readFastaGo rest header (seq ++ stripL line)

/-- `streamlit_merge_fasta.read_fasta` on decoded file content. -/
def read_fasta (content : String) : List (String × String) :=
  readFastaGo (pySplitlines content.data) [] []

/-- The merger's combined state:  the surviving `(header, sequence)` pairs
in order, the global duplicate count, and the per-file duplicate report. -/
structure MergeResult where
  all_sequences : List (String × String)
  duplicate_count_total : Nat
  file_duplicate_report : List (String × Nat)
deriving DecidableEq, Repr

/-- The per-entry loop of the merger: a header already seen increments the
global and per-file duplicate counters and drops the pair, a new header is
recorded as seen and the pair appended to the combined list.  The seen set
is modelled as the list of headers in first-seen order (only membership is
used). -/
def mergeEntriesGo : List (String × String) → List String → List (String × String) →
    Nat → Nat → List String × List (String × String) × Nat × Nat
  | [], seen, all, total, inFile => (seen, all, total, inFile)
  | (h, s) :: rest, seen, all, total, inFile =>
    if h ∈ seen then mergeEntriesGo rest seen all (total + 1) (inFile + 1)
    else mergeEntriesGo rest (seen ++ [h]) (all ++ [(h, s)]) total inFile

/-- The per-file loop of the merger over `(file name, decoded content)`
pairs, recording each file's duplicate count in the report dict. -/
def mergeFilesGo : List (String × String) → List String → List (String × String) →
    Nat → List (String × Nat) → MergeResult
  | [], _, all, total, report => ⟨all, total, report⟩
  | (name, content) :: rest, seen, all, total, report =>
    match mergeEntriesGo (read_fasta content) seen all total 0 with
    | (seen2, all2, total2, inFile) =>
      mergeFilesGo rest seen2 all2 total2 (odInsert report name inFile)

/-- The merger's whole upload-processing pass. -/
def merge_uploaded_files (files : List (String × String)) : MergeResult :=
  mergeFilesGo files [] [] 0 []

/-! ### Association-list and filtering-loop lemmas -/

lemma odInsert_of_not_mem {α : Type} {l : List (String × α)} {k : String} (v : α)
    (h : k ∉ l.map Prod.fst) : odInsert l k v = l ++ [(k, v)] := by
  unfold odInsert
  rw [if_neg]
  intro hany
  rw [List.any_eq_true] at hany
  obtain ⟨p, hp, hpk⟩ := hany
  exact h (List.mem_map.mpr ⟨p, hp, beq_iff_eq.mp hpk⟩)

lemma key_unique {α : Type} {l : List (String × α)} (hnd : (l.map Prod.fst).Nodup)
    {p q : String × α} (hp : p ∈ l) (hq : q ∈ l) (hk : p.1 = q.1) : p = q :=
  List.inj_on_of_nodup_map hnd hp hq hk

lemma filterGo_eq (tm : List (String × Int)) (mp : Int) (ml : Option Int) :
    ∀ (l kept : List (String × FastaRecord)) (removed : List (String × RemovalDetail))
      (missing : List String),
      (l.map Prod.fst).Nodup →
      (∀ p ∈ l, p.1 ∉ kept.map Prod.fst) →
      (∀ p ∈ l, p.1 ∉ removed.map Prod.fst) →
      filterGo tm mp ml l kept removed missing =
        ⟨kept ++ l.filter (passesB tm mp ml),
         removed ++ (l.filter (fun p => !passesB tm mp ml p)).map (removalPair tm mp ml),
         missing ++ (l.filter (fun p => (tm.lookup p.1).isNone)).map Prod.fst⟩ := by
  intro l
  induction l with
  | nil => intro kept removed missing _ _ _; simp [filterGo]
  | cons hd rest ih =>
    rcases hd with ⟨id, r⟩
    intro kept removed missing hnd hk hr
    simp only [List.map_cons, List.nodup_cons] at hnd
    obtain ⟨hid, hnd2⟩ := hnd
    have hk0 : id ∉ kept.map Prod.fst := hk (id, r) (List.mem_cons_self _ _)
    have hr0 : id ∉ removed.map Prod.fst := hr (id, r) (List.mem_cons_self _ _)
    have hne : ∀ p ∈ rest, p.1 ≠ id := by
      intro p hp hpe
      exact hid (hpe ▸ List.mem_map.mpr ⟨p, hp, rfl⟩)
    by_cases hp : (predhelOkB tm mp id && lengthOkB ml r.sequence.length) = true
    · have hstep : filterGo tm mp ml ((id, r) :: rest) kept removed missing =
          filterGo tm mp ml rest (odInsert kept id r) removed (missUpd tm missing id) := by
        simp only [filterGo]
        rw [if_pos hp]
      rw [hstep, odInsert_of_not_mem r hk0,
        ih (kept ++ [(id, r)]) removed (missUpd tm missing id) hnd2
          (by
            intro p hp2
            rw [List.map_append, List.mem_append]
            rintro (h1 | h1)
            · exact hk p (List.mem_cons_of_mem _ hp2) h1
            · simp only [List.map_cons, List.map_nil, List.mem_singleton] at h1
              exact hne p hp2 h1)
          (fun p hp2 => hr p (List.mem_cons_of_mem _ hp2))]
      obtain ⟨hA, hB⟩ : predhelOkB tm mp id = true ∧ lengthOkB ml r.sequence.length = true := by
        simpa using hp
      unfold missUpd
      by_cases hlk : tm.lookup id = none
      · simp [List.filter_cons, passesB, hA, hB, hlk, List.append_assoc]
      · simp [List.filter_cons, passesB, hA, hB, hlk, List.append_assoc]
    · have hpf : (predhelOkB tm mp id && lengthOkB ml r.sequence.length) = false :=
        Bool.eq_false_iff.mpr hp
      have hstep : filterGo tm mp ml ((id, r) :: rest) kept removed missing =
          filterGo tm mp ml rest kept
            (odInsert removed id (mkRemoval tm mp ml id r)) (missUpd tm missing id) := by
        simp only [filterGo]
        rw [if_neg hp]
      rw [hstep, odInsert_of_not_mem (mkRemoval tm mp ml id r) hr0,
        ih kept (removed ++ [(id, mkRemoval tm mp ml id r)]) (missUpd tm missing id) hnd2
          (fun p hp2 => hk p (List.mem_cons_of_mem _ hp2))
          (by
            intro p hp2
            rw [List.map_append, List.mem_append]
            rintro (h1 | h1)
            · exact hr p (List.mem_cons_of_mem _ hp2) h1
            · simp only [List.map_cons, List.map_nil, List.mem_singleton] at h1
              exact hne p hp2 h1)]
      have hor : predhelOkB tm mp id = false ∨ lengthOkB ml r.sequence.length = false := by
        cases hA : predhelOkB tm mp id with
        | false => exact Or.inl rfl
        | true =>
          cases hB : lengthOkB ml r.sequence.length with
          | false => exact Or.inr rfl
          | true => exact (hp (by simp [hA, hB])).elim
      unfold missUpd
      by_cases hlk : tm.lookup id = none
      · rcases hor with h1 | h1 <;>
          simp [List.filter_cons, passesB, h1, hlk, List.append_assoc, removalPair]
      · rcases hor with h1 | h1 <;>
          simp [List.filter_cons, passesB, h1, hlk, List.append_assoc, removalPair]

lemma filter_records_eq (fasta : List (String × FastaRecord)) (tm : List (String × Int))
    (mp : Int) (ml : Option Int) (hnd : (fasta.map Prod.fst).Nodup) :
    filter_records fasta tm mp ml =
      ⟨fasta.filter (passesB tm mp ml),
       (fasta.filter (fun p => !passesB tm mp ml p)).map (removalPair tm mp ml),
       (fasta.filter (fun p => (tm.lookup p.1).isNone)).map Prod.fst⟩ := by
  have h := filterGo_eq tm mp ml fasta [] [] [] hnd (by simp) (by simp)
  simpa [filter_records] using h

lemma lengthOnlyGo_eq (m : Int) :
    ∀ (l kept : List (String × FastaRecord)) (removed : List (String × RemovalDetail)),
      (l.map Prod.fst).Nodup →
      (∀ p ∈ l, p.1 ∉ kept.map Prod.fst) →
      (∀ p ∈ l, p.1 ∉ removed.map Prod.fst) →
      lengthOnlyGo m l kept removed =
        ⟨kept ++ l.filter (lenPassB m),
         removed ++ (l.filter (fun p => !lenPassB m p)).map (lenRemovalPair m), []⟩ := by
  intro l
  induction l with
  | nil => intro kept removed _ _ _; simp [lengthOnlyGo]
  | cons hd rest ih =>
    rcases hd with ⟨id, r⟩
    intro kept removed hnd hk hr
    simp only [List.map_cons, List.nodup_cons] at hnd
    obtain ⟨hid, hnd2⟩ := hnd
    have hk0 : id ∉ kept.map Prod.fst := hk (id, r) (List.mem_cons_self _ _)
    have hr0 : id ∉ removed.map Prod.fst := hr (id, r) (List.mem_cons_self _ _)
    have hne : ∀ p ∈ rest, p.1 ≠ id := by
      intro p hp hpe
      exact hid (hpe ▸ List.mem_map.mpr ⟨p, hp, rfl⟩)
    by_cases hp : (decide ((r.sequence.length : Int) < m)) = true
    · have hstep : lengthOnlyGo m ((id, r) :: rest) kept removed =
          lengthOnlyGo m rest (odInsert kept id r) removed := by
        simp only [lengthOnlyGo]
        rw [if_pos hp]
      rw [hstep, odInsert_of_not_mem r hk0,
        ih (kept ++ [(id, r)]) removed hnd2
          (by
            intro p hp2
            rw [List.map_append, List.mem_append]
            rintro (h1 | h1)
            · exact hk p (List.mem_cons_of_mem _ hp2) h1
            · simp only [List.map_cons, List.map_nil, List.mem_singleton] at h1
              exact hne p hp2 h1)
          (fun p hp2 => hr p (List.mem_cons_of_mem _ hp2))]
      simp [List.filter_cons, lenPassB, hp, List.append_assoc]
    · have hpf : (decide ((r.sequence.length : Int) < m)) = false := Bool.eq_false_iff.mpr hp
      have hstep : lengthOnlyGo m ((id, r) :: rest) kept removed =
          lengthOnlyGo m rest kept
            (odInsert removed id ⟨r, "Length≥" ++ toString m, none, r.sequence.length⟩) := by
        simp only [lengthOnlyGo]
        rw [if_neg (by simp [hpf])]
      rw [hstep, odInsert_of_not_mem _ hr0,
        ih kept _ hnd2
          (fun p hp2 => hk p (List.mem_cons_of_mem _ hp2))
          (by
            intro p hp2
            rw [List.map_append, List.mem_append]
            rintro (h1 | h1)
            · exact hr p (List.mem_cons_of_mem _ hp2) h1
            · simp only [List.map_cons, List.map_nil, List.mem_singleton] at h1
              exact hne p hp2 h1)]
      simp [List.filter_cons, lenPassB, hpf, List.append_assoc, lenRemovalPair]

lemma filter_by_length_only_eq (fasta : List (String × FastaRecord)) (m : Int)
    (hnd : (fasta.map Prod.fst).Nodup) :
    filter_by_length_only fasta m =
      ⟨fasta.filter (lenPassB m),
       (fasta.filter (fun p => !lenPassB m p)).map (lenRemovalPair m), []⟩ := by
  have h := lengthOnlyGo_eq m fasta [] [] hnd (by simp) (by simp)
  simpa [filter_by_length_only] using h

lemma predhelOkB_eq_true_iff (tm : List (String × Int)) (mp : Int) (id : String) :
    predhelOkB tm mp id = true ↔
      (tm.lookup id = none ∨ ∃ p, tm.lookup id = some p ∧ p ≤ mp) := by
  unfold predhelOkB
  cases h : tm.lookup id <;> simp [h]

lemma lengthOkB_eq_true_iff (ml : Option Int) (len : Nat) :
    lengthOkB ml len = true ↔ (ml = none ∨ ∃ m, ml = some m ∧ (len : Int) < m) := by
  unfold lengthOkB
  cases ml <;> simp

lemma mem_map_fst_filter (f : String × FastaRecord → Bool) (l : List (String × FastaRecord))
    (hnd : (l.map Prod.fst).Nodup) (id : String) (r : FastaRecord) (hmem : (id, r) ∈ l) :
    id ∈ (l.filter f).map Prod.fst ↔ f (id, r) = true := by
  constructor
  · intro h
    obtain ⟨p, hp, hfst⟩ := List.mem_map.mp h
    obtain ⟨hpl, hpf⟩ := List.mem_filter.mp hp
    have := key_unique hnd hpl hmem (by simpa using hfst)
    rwa [this] at hpf
  · intro h
    exact List.mem_map.mpr ⟨(id, r), List.mem_filter.mpr ⟨hmem, h⟩, rfl⟩

lemma passesB_eq_true_iff (tm : List (String × Int)) (mp : Int) (ml : Option Int)
    (id : String) (r : FastaRecord) :
    passesB tm mp ml (id, r) = true ↔
      (tm.lookup id = none ∨ ∃ p, tm.lookup id = some p ∧ p ≤ mp) ∧
      (ml = none ∨ ∃ m, ml = some m ∧ (r.sequence.length : Int) < m) := by
  constructor
  · intro h
    have h2 : predhelOkB tm mp id = true ∧ lengthOkB ml r.sequence.length = true := by
      simpa [passesB] using h
    exact ⟨(predhelOkB_eq_true_iff tm mp id).mp h2.1,
      (lengthOkB_eq_true_iff ml r.sequence.length).mp h2.2⟩
  · rintro ⟨h1, h2⟩
    simp [passesB, (predhelOkB_eq_true_iff tm mp id).mpr h1,
      (lengthOkB_eq_true_iff ml r.sequence.length).mpr h2]

lemma removed_map_fst (fasta : List (String × FastaRecord)) (tm : List (String × Int))
    (mp : Int) (ml : Option Int) :
    ((fasta.filter (fun p => !passesB tm mp ml p)).map (removalPair tm mp ml)).map Prod.fst =
      (fasta.filter (fun p => !passesB tm mp ml p)).map Prod.fst := by
  rw [List.map_map]; rfl

/-- C2: `filter_records` keeps a record iff its prediction is absent or at
most `max_predhel`, and `max_length` is absent or the sequence length is
strictly below it; otherwise the record is removed.  The boundary cases of
the claim (PredHel equal to the threshold keeps, one more removes; length
equal to `max_length` removes, one less keeps) are instances of the two
equivalences. -/
theorem claim_C2 (fasta : List (String × FastaRecord)) (tm : List (String × Int))
    (mp : Int) (ml : Option Int) (hnd : (fasta.map Prod.fst).Nodup)
    (id : String) (r : FastaRecord) (hmem : (id, r) ∈ fasta) :
    ((id, r) ∈ (filter_records fasta tm mp ml).kept ↔
      (tm.lookup id = none ∨ ∃ p, tm.lookup id = some p ∧ p ≤ mp) ∧
      (ml = none ∨ ∃ m, ml = some m ∧ (r.sequence.length : Int) < m)) ∧
    (id ∈ (filter_records fasta tm mp ml).removed.map Prod.fst ↔
      ¬((tm.lookup id = none ∨ ∃ p, tm.lookup id = some p ∧ p ≤ mp) ∧
        (ml = none ∨ ∃ m, ml = some m ∧ (r.sequence.length : Int) < m))) := by
  rw [filter_records_eq fasta tm mp ml hnd]
  constructor
  · rw [List.mem_filter]
    rw [← passesB_eq_true_iff tm mp ml id r]
    exact ⟨fun h => h.2, fun h => ⟨hmem, h⟩⟩
  · rw [removed_map_fst, mem_map_fst_filter _ fasta hnd id r hmem,
      ← passesB_eq_true_iff tm mp ml id r]
    cases hb : passesB tm mp ml (id, r) <;> simp [hb]

/-- C2 witness: one record of length 2 with PredHel 0 passes both checks
with `max_predhel = 0` and `max_length = 3`. -/
theorem claim_C2_witness :
    ("A", (⟨"A", "A", "MK"⟩ : FastaRecord)) ∈
      (filter_records [("A", ⟨"A", "A", "MK"⟩)] [("A", 0)] 0 (some 3)).kept :=
  (claim_C2 [("A", ⟨"A", "A", "MK"⟩)] [("A", 0)] 0 (some 3) (by decide) "A" ⟨"A", "A", "MK"⟩
      (by decide)).1.mpr
    ⟨Or.inr ⟨0, rfl, le_refl 0⟩, Or.inr ⟨3, rfl, by decide⟩⟩

/-- C3: identifiers without a prediction always pass the PredHel check
(they can be removed only on length grounds), and `missing_predictions` is
exactly the list of such identifiers in original input order. -/
theorem claim_C3 (fasta : List (String × FastaRecord)) (tm : List (String × Int))
    (mp : Int) (ml : Option Int) (hnd : (fasta.map Prod.fst).Nodup) :
    (filter_records fasta tm mp ml).missing_predictions =
      (fasta.filter (fun p => (tm.lookup p.1).isNone)).map Prod.fst ∧
    ∀ id r, (id, r) ∈ fasta → tm.lookup id = none →
      ((id, r) ∈ (filter_records fasta tm mp ml).kept ↔
        (ml = none ∨ ∃ m, ml = some m ∧ (r.sequence.length : Int) < m)) := by
  rw [filter_records_eq fasta tm mp ml hnd]
  refine ⟨rfl, ?_⟩
  intro id r hmem hlk
  have hp := passesB_eq_true_iff tm mp ml id r
  rw [hlk] at hp
  simp only [true_or, true_and] at hp
  rw [List.mem_filter, ← hp]
  exact ⟨fun h => h.2, fun h => ⟨hmem, h⟩⟩

/-- C3 witness: an identifier absent from the prediction table is kept
(under a permissive length bound) and listed in `missing_predictions`. -/
theorem claim_C3_witness :
    (filter_records [("A", ⟨"A", "A", "MK"⟩)] [("B", 7)] 0 (some 3)).missing_predictions =
      ["A"] ∧
    (("A", (⟨"A", "A", "MK"⟩ : FastaRecord)) ∈
      (filter_records [("A", ⟨"A", "A", "MK"⟩)] [("B", 7)] 0 (some 3)).kept ↔
      ((some 3 : Option Int) = none ∨
        ∃ m, (some 3 : Option Int) = some m ∧ (("MK" : String).length : Int) < m)) := by
  have h := claim_C3 [("A", ⟨"A", "A", "MK"⟩)] [("B", 7)] 0 (some 3) (by decide)
  exact ⟨by rw [h.1]; rfl, h.2 "A" ⟨"A", "A", "MK"⟩ (by decide) (by rfl)⟩

lemma data_head_append (s t : String) (c : Char) (h : s.data.head? = some c) :
    (s ++ t).data.head? = some c := by
  rw [String.data_append, List.head?_append, h]; rfl

lemma str_ne_of_head (s t : String) (c d : Char) (hc : s.data.head? = some c)
    (hd : t.data.head? = some d) (hne : c ≠ d) : s ≠ t := by
  intro he
  rw [he, hd] at hc
  exact hne (Option.some.inj hc).symm

/-- C4: every removal reason is the failed-check reasons joined by `", "`
in PredHel-then-Length order, and the defensive fallback `"Filtered"` never
occurs. -/
theorem claim_C4 (fasta : List (String × FastaRecord)) (tm : List (String × Int))
    (mp : Int) (ml : Option Int) (hnd : (fasta.map Prod.fst).Nodup)
    (id : String) (d : RemovalDetail)
    (hmem : (id, d) ∈ (filter_records fasta tm mp ml).removed) :
    d.reason ≠ "Filtered" ∧
    (predhelOkB tm mp id = false → lengthOkB ml d.length = true →
      d.reason = "PredHel>" ++ toString mp) ∧
    (predhelOkB tm mp id = true → lengthOkB ml d.length = false →
      ∃ m, ml = some m ∧ d.reason = "Length≥" ++ toString m) ∧
    (predhelOkB tm mp id = false → lengthOkB ml d.length = false →
      ∃ m, ml = some m ∧
        d.reason = ("PredHel>" ++ toString mp) ++ ", " ++ ("Length≥" ++ toString m)) := by
  rw [filter_records_eq fasta tm mp ml hnd] at hmem
  obtain ⟨p, hpf, hpe⟩ := List.mem_map.mp hmem
  obtain ⟨hpl, hnp⟩ := List.mem_filter.mp hpf
  rcases p with ⟨pid, pr⟩
  have hid : pid = id := congrArg Prod.fst hpe
  have hd : d = mkRemoval tm mp ml pid pr := (congrArg Prod.snd hpe).symm
  subst hid
  subst hd
  have hlen : (mkRemoval tm mp ml pid pr).length = pr.sequence.length := rfl
  have hreason : (mkRemoval tm mp ml pid pr).reason =
      removalReason mp ml (predhelOkB tm mp pid) (lengthOkB ml pr.sequence.length) := rfl
  have hPhead : ∀ t : String, ("PredHel>" ++ t).data.head? = some 'P' :=
    fun t => data_head_append "PredHel>" t 'P' rfl
  have hLhead : ∀ t : String, ("Length≥" ++ t).data.head? = some 'L' :=
    fun t => data_head_append "Length≥" t 'L' rfl
  have hnpass : ¬(predhelOkB tm mp pid = true ∧ lengthOkB ml pr.sequence.length = true) := by
    rintro ⟨h1, h2⟩
    simp [passesB, h1, h2] at hnp
  rw [hlen, hreason]
  refine ⟨?_, ?_, ?_, ?_⟩
  · cases hA : predhelOkB tm mp pid with
    | false =>
      cases ml with
      | none =>
        simp only [removalReason, hA, joinComma]
        exact str_ne_of_head _ _ 'P' 'F' (hPhead (toString mp)) rfl (by decide)
      | some m =>
        cases hB : lengthOkB (some m) pr.sequence.length with
        | false =>
          simp only [removalReason, hA, hB, joinComma]
          refine str_ne_of_head _ _ 'P' 'F' ?_ rfl (by decide)
          exact data_head_append _ _ 'P'
            (data_head_append _ ", " 'P' (hPhead (toString mp)))
        | true =>
          simp only [removalReason, hA, hB, joinComma]
          exact str_ne_of_head _ _ 'P' 'F' (hPhead (toString mp)) rfl (by decide)
    | true =>
      cases hB : lengthOkB ml pr.sequence.length with
      | false =>
        cases ml with
        | none => simp [lengthOkB] at hB
        | some m =>
          simp only [removalReason, hA, hB, joinComma]
          exact str_ne_of_head _ _ 'L' 'F' (hLhead (toString m)) rfl (by decide)
      | true => exact absurd ⟨hA, hB⟩ hnpass
  · intro hA hB
    cases ml with
    | none => simp [removalReason, hA, hB, joinComma]
    | some m => simp [removalReason, hA, hB, joinComma]
  · intro hA hB
    cases ml with
    | none => simp [lengthOkB] at hB
    | some m => exact ⟨m, rfl, by simp [removalReason, hA, hB, joinComma]⟩
  · intro hA hB
    cases ml with
    | none => simp [lengthOkB] at hB
    | some m => exact ⟨m, rfl, by simp [removalReason, hA, hB, joinComma]⟩

/-- C4 witness: a record failing both checks reports
`PredHel>0, Length≥1`, never `Filtered`. -/
theorem claim_C4_witness :
    (mkRemoval [("A", 2)] 0 (some 1) "A" ⟨"A", "A", "MK"⟩).reason ≠ "Filtered" ∧
    (mkRemoval [("A", 2)] 0 (some 1) "A" ⟨"A", "A", "MK"⟩).reason =
      ("PredHel>" ++ toString (0 : Int)) ++ ", " ++ ("Length≥" ++ toString (1 : Int)) := by
  have h := claim_C4 [("A", ⟨"A", "A", "MK"⟩)] [("A", 2)] 0 (some 1) (by decide)
    "A" (mkRemoval [("A", 2)] 0 (some 1) "A" ⟨"A", "A", "MK"⟩)
    (by rw [filter_records_eq _ _ _ _ (by decide)]; decide)
  obtain ⟨m, hm, hr⟩ := h.2.2.2 (by rfl) (by rfl)
  exact ⟨h.1, by rw [hr, Option.some.inj hm]⟩

lemma lenRemoved_map_fst (fasta : List (String × FastaRecord)) (m : Int) :
    ((fasta.filter (fun p => !lenPassB m p)).map (lenRemovalPair m)).map Prod.fst =
      (fasta.filter (fun p => !lenPassB m p)).map Prod.fst := by
  rw [List.map_map]; rfl

/-- C6: both filters partition the input identifiers: kept and removed
identifier lists are sublists of the input identifier list (hence keep its
relative order), and every input identifier lands in exactly one of the
two. -/
theorem claim_C6 (fasta : List (String × FastaRecord)) (tm : List (String × Int))
    (mp : Int) (ml : Option Int) (m : Int) (hnd : (fasta.map Prod.fst).Nodup) :
    ((filter_records fasta tm mp ml).kept.map Prod.fst).Sublist (fasta.map Prod.fst) ∧
    ((filter_records fasta tm mp ml).removed.map Prod.fst).Sublist (fasta.map Prod.fst) ∧
    (∀ id ∈ fasta.map Prod.fst,
      (id ∈ (filter_records fasta tm mp ml).kept.map Prod.fst ↔
        id ∉ (filter_records fasta tm mp ml).removed.map Prod.fst)) ∧
    ((filter_by_length_only fasta m).kept.map Prod.fst).Sublist (fasta.map Prod.fst) ∧
    ((filter_by_length_only fasta m).removed.map Prod.fst).Sublist (fasta.map Prod.fst) ∧
    (∀ id ∈ fasta.map Prod.fst,
      (id ∈ (filter_by_length_only fasta m).kept.map Prod.fst ↔
        id ∉ (filter_by_length_only fasta m).removed.map Prod.fst)) := by
  rw [filter_records_eq fasta tm mp ml hnd, filter_by_length_only_eq fasta m hnd]
  refine ⟨List.Sublist.map Prod.fst (List.filter_sublist fasta),
    by rw [removed_map_fst]; exact List.Sublist.map Prod.fst (List.filter_sublist fasta),
    ?_,
    List.Sublist.map Prod.fst (List.filter_sublist fasta),
    by rw [lenRemoved_map_fst]; exact List.Sublist.map Prod.fst (List.filter_sublist fasta),
    ?_⟩
  · intro id hid
    obtain ⟨p, hp, hfst⟩ := List.mem_map.mp hid
    rcases p with ⟨pid, r⟩
    rcases hfst
    rw [removed_map_fst, mem_map_fst_filter _ fasta hnd pid r hp,
      mem_map_fst_filter _ fasta hnd pid r hp]
    cases hb : passesB tm mp ml (pid, r) <;> simp [hb]
  · intro id hid
    obtain ⟨p, hp, hfst⟩ := List.mem_map.mp hid
    rcases p with ⟨pid, r⟩
    rcases hfst
    rw [lenRemoved_map_fst, mem_map_fst_filter _ fasta hnd pid r hp,
      mem_map_fst_filter _ fasta hnd pid r hp]
    cases hb : lenPassB m (pid, r) <;> simp [hb]

/-- C6 witness: on a two-record input, the kept record's identifier is
absent from removed and vice versa, and the removed identifiers form a
sublist of the input identifiers. -/
theorem claim_C6_witness :
    ("A" ∈ (filter_records [("A", ⟨"A", "A", "MK"⟩), ("B", ⟨"B", "B", "VVVV"⟩)]
        [("B", 5)] 0 none).kept.map Prod.fst ↔
      "A" ∉ (filter_records [("A", ⟨"A", "A", "MK"⟩), ("B", ⟨"B", "B", "VVVV"⟩)]
        [("B", 5)] 0 none).removed.map Prod.fst) ∧
    ((filter_by_length_only [("A", ⟨"A", "A", "MK"⟩), ("B", ⟨"B", "B", "VVVV"⟩)]
        3).removed.map Prod.fst).Sublist
      ([("A", (⟨"A", "A", "MK"⟩ : FastaRecord)), ("B", ⟨"B", "B", "VVVV"⟩)].map Prod.fst) := by
  have h := claim_C6 [("A", ⟨"A", "A", "MK"⟩), ("B", ⟨"B", "B", "VVVV"⟩)] [("B", 5)]
    0 none 3 (by decide)
  exact ⟨h.2.2.1 "A" (by decide), h.2.2.2.2.1⟩

lemma mem_odInsert {α : Type} {l : List (String × α)} {k : String} {v : α} {q : String × α}
    (h : q ∈ odInsert l k v) : q ∈ l ∨ q = (k, v) := by
  unfold odInsert at h
  split at h
  · obtain ⟨p, hp, he⟩ := List.mem_map.mp h
    by_cases hc : (p.1 == k) = true
    · rw [if_pos hc] at he
      exact Or.inr he.symm
    · rw [if_neg hc] at he
      exact Or.inl (he ▸ hp)
  · rcases List.mem_append.mp h with h1 | h1
    · exact Or.inl h1
    · exact Or.inr (List.mem_singleton.mp h1)

lemma lengthOnlyGo_missing (m : Int) :
    ∀ (l kept : List (String × FastaRecord)) (removed : List (String × RemovalDetail)),
      (lengthOnlyGo m l kept removed).missing_predictions = [] := by
  intro l
  induction l with
  | nil => intro kept removed; rfl
  | cons hd rest ih =>
    rcases hd with ⟨id, r⟩
    intro kept removed
    simp only [lengthOnlyGo]
    split <;> apply ih

lemma lengthOnlyGo_predhel_none (m : Int) :
    ∀ (l kept : List (String × FastaRecord)) (removed : List (String × RemovalDetail)),
      (∀ p ∈ removed, (p : String × RemovalDetail).2.predhel = none) →
      ∀ p ∈ (lengthOnlyGo m l kept removed).removed, p.2.predhel = none := by
  intro l
  induction l with
  | nil => intro kept removed hrm p hp; exact hrm p hp
  | cons hd rest ih =>
    rcases hd with ⟨id, r⟩
    intro kept removed hrm
    simp only [lengthOnlyGo]
    split
    · exact ih _ _ hrm
    · refine ih _ _ ?_
      intro p hp
      rcases mem_odInsert hp with h1 | h1
      · exact hrm p h1
      · rw [h1]

lemma filterGo_empty_tm (mp m : Int) :
    ∀ (l kept : List (String × FastaRecord)) (removed : List (String × RemovalDetail))
      (missing : List String),
      filterGo [] mp (some m) l kept removed missing =
        ⟨(lengthOnlyGo m l kept removed).kept, (lengthOnlyGo m l kept removed).removed,
         missing ++ l.map Prod.fst⟩ := by
  intro l
  induction l with
  | nil => intro kept removed missing; simp [filterGo, lengthOnlyGo]
  | cons hd rest ih =>
    rcases hd with ⟨id, r⟩
    intro kept removed missing
    have hpred : predhelOkB [] mp id = true := rfl
    have hmiss : missUpd [] missing id = missing ++ [id] := by simp [missUpd]
    simp only [filterGo, lengthOnlyGo, hpred, Bool.true_and, hmiss, lengthOkB]
    by_cases hc : decide ((r.sequence.length : Int) < m) = true
    · rw [if_pos hc, if_pos hc, ih]
      simp
    · have hcf : decide ((r.sequence.length : Int) < m) = false := Bool.eq_false_iff.mpr hc
      have hmk : mkRemoval [] mp (some m) id r =
          ⟨r, "Length≥" ++ toString m, none, r.sequence.length⟩ := by
        unfold mkRemoval
        rw [hpred, show lengthOkB (some m) r.sequence.length = false from hcf]
        simp [removalReason, joinComma]
      rw [if_neg hc, if_neg hc, hmk, ih]
      simp

/-- C10: with an empty prediction table, `filter_records` and
`filter_by_length_only` produce the same kept and removed mappings (the
removal details all have an absent PredHel), and differ only in
`missing_predictions`: every input identifier for the former, the empty
sequence for the latter. -/
theorem claim_C10 (fasta : List (String × FastaRecord)) (mp m : Int) (_hm : 0 < m) :
    (filter_records fasta [] mp (some m)).kept = (filter_by_length_only fasta m).kept ∧
    (filter_records fasta [] mp (some m)).removed = (filter_by_length_only fasta m).removed ∧
    (∀ p ∈ (filter_records fasta [] mp (some m)).removed,
      (p : String × RemovalDetail).2.predhel = none) ∧
    (filter_records fasta [] mp (some m)).missing_predictions = fasta.map Prod.fst ∧
    (filter_by_length_only fasta m).missing_predictions = [] := by
  have h := filterGo_empty_tm mp m fasta [] [] []
  rw [filter_records, h]
  refine ⟨rfl, rfl, ?_, by simp, lengthOnlyGo_missing m fasta [] []⟩
  intro p hp
  exact lengthOnlyGo_predhel_none m fasta [] [] (by simp) p hp

/-- C10 witness: at `max_length = 1`, a length-2 record is removed
identically by both filters, and only `filter_records` reports it
missing. -/
theorem claim_C10_witness :
    (filter_records [("A", ⟨"A", "A", "MK"⟩)] [] 0 (some 1)).removed =
      (filter_by_length_only [("A", ⟨"A", "A", "MK"⟩)] 1).removed ∧
    (filter_records [("A", ⟨"A", "A", "MK"⟩)] [] 0 (some 1)).missing_predictions =
      [("A", (⟨"A", "A", "MK"⟩ : FastaRecord))].map Prod.fst := by
  have h := claim_C10 [("A", ⟨"A", "A", "MK"⟩)] 0 1 (by decide)
  exact ⟨h.2.1, h.2.2.2.1⟩

lemma normalizeMaxLength_nonpos (n : Int) (h : n ≤ 0) : normalizeMaxLength n = none := by
  unfold normalizeMaxLength
  by_cases h0 : n = 0
  · simp [h0]
  · rw [if_neg h0, if_neg (by omega)]

lemma not_applied_of_head (s : String) (c : Char) (hc : s.data.head? = some c)
    (hne : c ≠ 'L') : ¬ List.IsPrefix ("Length filter applied").data s.data := by
  rintro ⟨t, ht⟩
  have h2 : s.data.head? = some 'L' := by
    rw [← ht, List.head?_append]; rfl
  rw [hc] at h2
  exact hne (Option.some.inj h2)

/-- C9: a non-positive `--max-length` argument (in particular 0) disables
length filtering: the filter runs with `max_length` absent, every record
passes the length check (kept iff the PredHel check passes), and the tool
prints `Length filter disabled.` while no printed line is the
`Length filter applied ...` line. -/
theorem claim_C9 (fasta : List (String × FastaRecord)) (tm : List (String × Int))
    (mp : Int) (arg : Int) (out : String) (harg : arg ≤ 0)
    (hnd : (fasta.map Prod.fst).Nodup) :
    normalizeMaxLength arg = none ∧
    cliResult fasta tm mp arg = filter_records fasta tm mp none ∧
    (∀ id r, (id, r) ∈ fasta →
      ((id, r) ∈ (cliResult fasta tm mp arg).kept ↔
        (tm.lookup id = none ∨ ∃ p, tm.lookup id = some p ∧ p ≤ mp))) ∧
    "Length filter disabled." ∈ cliOutput fasta tm mp arg out ∧
    (∀ s ∈ cliOutput fasta tm mp arg out,
      ¬ List.IsPrefix ("Length filter applied").data s.data) := by
  have hn : normalizeMaxLength arg = none := normalizeMaxLength_nonpos arg harg
  have hres : cliResult fasta tm mp arg = filter_records fasta tm mp none := by
    unfold cliResult; rw [hn]
  refine ⟨hn, hres, ?_, ?_, ?_⟩
  · intro id r hmem
    rw [hres, filter_records_eq fasta tm mp none hnd, List.mem_filter]
    constructor
    · rintro ⟨-, hpass⟩
      have h2 : predhelOkB tm mp id = true := by
        simpa [passesB, lengthOkB] using hpass
      exact (predhelOkB_eq_true_iff tm mp id).mp h2
    · intro hcond
      exact ⟨hmem, by
        simp [passesB, lengthOkB, (predhelOkB_eq_true_iff tm mp id).mpr hcond]⟩
  · unfold cliOutput
    rw [hn]
    simp
  · intro s hs
    unfold cliOutput at hs
    rw [hn] at hs
    simp only [List.mem_append, List.mem_cons, List.mem_singleton, List.not_mem_nil,
      or_false, false_or] at hs
    rcases hs with ((h1 | h1 | h1 | h1) | h1) | h1
    · rw [h1]
      exact not_applied_of_head _ 'T' (data_head_append _ _ 'T' rfl) (by decide)
    · rw [h1]
      exact not_applied_of_head _ 'S' (data_head_append _ _ 'S' rfl) (by decide)
    · rw [h1]
      exact not_applied_of_head _ 'S' (data_head_append _ _ 'S' rfl) (by decide)
    · rw [h1]
      exact not_applied_of_head _ 'O' (data_head_append _ _ 'O' rfl) (by decide)
    · rw [h1]
      rintro ⟨t, ht⟩
      have h3 : (("Length filter applied").data ++ t)[14]? =
          ("Length filter disabled." : String).data[14]? := by rw [ht]
      rw [List.getElem?_append, if_pos (by decide)] at h3
      exact absurd h3 (by decide)
    · split at h1
      · exact absurd h1 (List.not_mem_nil s)
      · rw [List.mem_singleton.mp h1]
        exact not_applied_of_head _ 'W'
          (data_head_append _ _ 'W' (data_head_append _ _ 'W' rfl)) (by decide)

/-! ### Whitespace-stripping and splitlines lemmas -/

lemma dropWhile_head_false (p : Char → Bool) :
    ∀ l : List Char, l.dropWhile p = [] ∨ ∃ c r, l.dropWhile p = c :: r ∧ p c = false := by
  intro l
  induction l with
  | nil => exact Or.inl rfl
  | cons c r ih =>
    rw [List.dropWhile_cons]
    by_cases hc : p c = true
    · rw [if_pos hc]; exact ih
    · rw [if_neg hc]; exact Or.inr ⟨c, r, rfl, Bool.eq_false_iff.mpr hc⟩

lemma dropWhile_cons_of_false {p : Char → Bool} {c : Char} (r : List Char)
    (hc : p c = false) : (c :: r).dropWhile p = c :: r := by
  rw [List.dropWhile_cons, if_neg (by simp [hc])]

lemma dropWhile_all_false {p : Char → Bool} : ∀ {l : List Char},
    (∀ c ∈ l, p c = false) → l.dropWhile p = l := by
  intro l h
  induction l with
  | nil => rfl
  | cons c r ih =>
    rw [List.dropWhile_cons, if_neg (by simp [h c (List.mem_cons_self _ _)])]

lemma stripL_mem {c : Char} {l : List Char} (h : c ∈ stripL l) : c ∈ l := by
  unfold stripL at h
  have h1 := List.mem_reverse.mp h
  have h2 := List.Sublist.mem h1 (List.dropWhile_sublist _)
  have h3 := List.mem_reverse.mp h2
  exact List.Sublist.mem h3 (List.dropWhile_sublist _)

lemma stripL_prefix (l : List Char) :
    List.IsPrefix (stripL l) (l.dropWhile pyIsSpace) := by
  have h := List.dropWhile_suffix (l := (l.dropWhile pyIsSpace).reverse) pyIsSpace
  have h2 := List.reverse_prefix.mpr h
  rw [List.reverse_reverse] at h2
  exact h2

lemma stripL_head_not_space {l : List Char} {c : Char} {r : List Char}
    (h : stripL l = c :: r) : pyIsSpace c = false := by
  obtain ⟨t, ht⟩ := stripL_prefix l
  rw [h] at ht
  rcases dropWhile_head_false pyIsSpace l with h1 | ⟨d, r2, h1, hd⟩
  · rw [h1] at ht; exact absurd ht (by simp)
  · rw [h1] at ht
    have : c = d := by
      have := congrArg List.head? ht
      simpa using this
    rwa [this]

lemma stripL_rev_head_not_space {l : List Char} {c : Char} {r : List Char}
    (h : (stripL l).reverse = c :: r) : pyIsSpace c = false := by
  unfold stripL at h
  rw [List.reverse_reverse] at h
  rcases dropWhile_head_false pyIsSpace ((l.dropWhile pyIsSpace).reverse) with h1 | ⟨d, r2, h1, hd⟩
  · rw [h1] at h; exact absurd h (by simp)
  · rw [h1] at h
    have : c = d := by
      have := congrArg List.head? h.symm
      simpa using this
    rwa [this]

lemma stripL_nil : stripL [] = [] := rfl

lemma stripL_idem (l : List Char) : stripL (stripL l) = stripL l := by
  rcases hs : stripL l with _ | ⟨c, r⟩
  · exact stripL_nil
  · have hc := stripL_head_not_space hs
    show (((c :: r).dropWhile pyIsSpace).reverse.dropWhile pyIsSpace).reverse = c :: r
    rw [dropWhile_cons_of_false r hc]
    rcases hrv : (c :: r).reverse with _ | ⟨d, r2⟩
    · exact absurd hrv (by simp)
    · have hd : pyIsSpace d = false := stripL_rev_head_not_space (l := l) (by rw [hs, hrv])
      rw [dropWhile_cons_of_false r2 hd, ← hrv, List.reverse_reverse]

lemma stripL_of_all_nonspace {l : List Char} (h : ∀ c ∈ l, pyIsSpace c = false) :
    stripL l = l := by
  unfold stripL
  rw [dropWhile_all_false h,
    dropWhile_all_false (fun c hc => h c (List.mem_reverse.mp hc)), List.reverse_reverse]

lemma firstTok_of_stripL_ne {l : List Char} (h : stripL l ≠ []) :
    firstTok (stripL l) ≠ [] := by
  rcases hs : stripL l with _ | ⟨c, r⟩
  · exact absurd hs h
  · have hc := stripL_head_not_space hs
    unfold firstTok
    rw [dropWhile_cons_of_false r hc, List.takeWhile_cons, if_pos (by simp [hc])]
    exact List.cons_ne_nil _ _

lemma splitBoundary_clean :
    ∀ (cs acc : List Char), (∀ c ∈ acc, isLineBoundary c = false) →
      ∀ l ∈ splitBoundary cs acc, lineClean l := by
  intro cs
  induction cs with
  | nil =>
    intro acc hacc l hl
    by_cases he : acc = []
    · simp [splitBoundary, he] at hl
    · simp only [splitBoundary, if_neg he, List.mem_singleton] at hl
      intro c hc
      exact hacc c (List.mem_reverse.mp (hl ▸ hc))
  | cons c rest ih =>
    intro acc hacc l hl
    simp only [splitBoundary] at hl
    by_cases hc : isLineBoundary c = true
    · rw [if_pos hc] at hl
      rcases List.mem_cons.mp hl with hl | hl
      · intro d hd
        exact hacc d (List.mem_reverse.mp (hl ▸ hd))
      · exact ih [] (by simp) l hl
    · rw [if_neg hc] at hl
      refine ih (c :: acc) ?_ l hl
      intro d hd
      rcases List.mem_cons.mp hd with hd | hd
      · rw [hd]; exact Bool.eq_false_iff.mpr hc
      · exact hacc d hd

lemma pySplitlines_clean (cs : List Char) : ∀ l ∈ pySplitlines cs, lineClean l :=
  splitBoundary_clean (normCRLF cs false) [] (by simp)

/-! ### C1: parse_fasta_text error behaviour -/

lemma flushRecord_ok (records : List (String × FastaRecord)) (header : Option (List Char))
    (chunks : List (List Char)) (hh : ∀ h, header = some h → firstTok h ≠ []) :
    ∃ out, flushRecord records header chunks = .ok out := by
  cases header with
  | none => exact ⟨records, rfl⟩
  | some h =>
    rcases hft : firstTok h with _ | ⟨c, ts⟩
    · exact absurd hft (hh h rfl)
    · refine ⟨odInsert records (String.mk (c :: ts))
        ⟨String.mk (c :: ts), String.mk h, String.mk (removeSpaceCR (joinL chunks))⟩, ?_⟩
      have hstep : flushRecord records (some h) chunks =
          match firstTok h with
          | [] => Except.error indexErrorMsg
          | c :: ts =>
            Except.ok (odInsert records (String.mk (c :: ts))
              ⟨String.mk (c :: ts), String.mk h, String.mk (removeSpaceCR (joinL chunks))⟩) :=
        rfl
      rw [hstep, hft]

lemma parseFastaLines_ok :
    ∀ (lines : List (List Char)) (records : List (String × FastaRecord))
      (header : Option (List Char)) (chunks : List (List Char)),
      (∀ line ∈ lines, line.head? = some '>' → stripL (line.drop 1) ≠ []) →
      (∀ h, header = some h → firstTok h ≠ []) →
      ∃ out, parseFastaLines lines records header chunks = .ok out := by
  intro lines
  induction lines with
  | nil =>
    intro records header chunks _ hh
    exact flushRecord_ok records header chunks hh
  | cons line rest ih =>
    intro records header chunks hl hh
    by_cases he : line = []
    · rw [show parseFastaLines (line :: rest) records header chunks =
          parseFastaLines rest records header chunks from by
        simp only [parseFastaLines, if_pos he]]
      exact ih records header chunks (fun l h2 => hl l (List.mem_cons_of_mem _ h2)) hh
    · by_cases hgt : line.head? = some '>'
      · obtain ⟨recs2, hr2⟩ := flushRecord_ok records header chunks hh
        rw [show parseFastaLines (line :: rest) records header chunks =
            parseFastaLines rest recs2 (some (stripL (line.drop 1))) [] from by
          simp only [parseFastaLines, if_neg he, if_pos hgt, hr2]]
        refine ih recs2 (some (stripL (line.drop 1))) []
          (fun l h2 => hl l (List.mem_cons_of_mem _ h2)) ?_
        intro h heq
        injection heq with heq
        rw [← heq]
        exact firstTok_of_stripL_ne (hl line (List.mem_cons_self _ _) hgt)
      · rw [show parseFastaLines (line :: rest) records header chunks =
            parseFastaLines rest records header (chunks ++ [stripL line]) from by
          simp only [parseFastaLines, if_neg he, if_neg hgt]]
        exact ih records header _ (fun l h2 => hl l (List.mem_cons_of_mem _ h2)) hh

lemma odInsert_forall_nodup {α : Type} {P : String × α → Prop} {l : List (String × α)}
    {k : String} {v : α} (hP : ∀ p ∈ l, P p) (hkv : P (k, v))
    (hnd : (l.map Prod.fst).Nodup) :
    (∀ p ∈ odInsert l k v, P p) ∧ ((odInsert l k v).map Prod.fst).Nodup := by
  constructor
  · intro p hp
    rcases mem_odInsert hp with h1 | h1
    · exact hP p h1
    · rw [h1]; exact hkv
  · unfold odInsert
    split
    · have hkeys : (l.map (fun p => if p.1 == k then (k, v) else p)).map Prod.fst =
          l.map Prod.fst := by
        rw [List.map_map]
        refine List.map_congr_left ?_
        intro p hp
        simp only [Function.comp_apply]
        by_cases hc : (p.1 == k) = true
        · rw [if_pos hc, beq_iff_eq.mp hc]
        · rw [if_neg hc]
      rw [hkeys]; exact hnd
    · rename_i hany
      rw [List.map_append, List.nodup_append]
      refine ⟨hnd, by simp, ?_⟩
      intro x hx hx2
      simp only [List.map_cons, List.map_nil, List.mem_singleton] at hx2
      rw [Bool.not_eq_true, List.any_eq_false] at hany
      obtain ⟨p, hp, hpe⟩ := List.mem_map.mp hx
      exact hany p hp (beq_iff_eq.mpr (by rw [hpe, hx2]))

lemma flushRecord_invariant {records : List (String × FastaRecord)}
    {header : Option (List Char)} {chunks : List (List Char)}
    {out : List (String × FastaRecord)}
    (hok : flushRecord records header chunks = .ok out)
    (hrec : ∀ p ∈ records, GoodPair p) (hnd : (records.map Prod.fst).Nodup)
    (hh : ∀ h, header = some h → stripL h = h ∧ lineClean h) :
    (∀ p ∈ out, GoodPair p) ∧ (out.map Prod.fst).Nodup := by
  cases header with
  | none =>
    have hor : records = out := Except.ok.inj hok
    rw [← hor]
    exact ⟨hrec, hnd⟩
  | some h =>
    obtain ⟨hstrip, hclean⟩ := hh h rfl
    have h0 : flushRecord records (some h) chunks =
        match firstTok h with
        | [] => Except.error indexErrorMsg
        | c :: ts =>
          Except.ok (odInsert records (String.mk (c :: ts))
            ⟨String.mk (c :: ts), String.mk h, String.mk (removeSpaceCR (joinL chunks))⟩) :=
      rfl
    rcases hft : firstTok h with _ | ⟨c, ts⟩
    · rw [h0, hft] at hok
      exact absurd hok (by simp)
    · rw [h0, hft] at hok
      have hout : out = odInsert records (String.mk (c :: ts))
          ⟨String.mk (c :: ts), String.mk h, String.mk (removeSpaceCR (joinL chunks))⟩ :=
        (Except.ok.inj hok).symm
      rw [hout]
      refine odInsert_forall_nodup hrec ⟨rfl, ?_, ?_, ?_, ?_⟩ hnd
      · exact hft.symm
      · exact List.cons_ne_nil c ts
      · exact hstrip
      · exact hclean

lemma parseFastaLines_invariant :
    ∀ (lines : List (List Char)) (records : List (String × FastaRecord))
      (header : Option (List Char)) (chunks : List (List Char))
      (out : List (String × FastaRecord)),
      parseFastaLines lines records header chunks = .ok out →
      (∀ l ∈ lines, lineClean l) →
      (∀ p ∈ records, GoodPair p) →
      (records.map Prod.fst).Nodup →
      (∀ h, header = some h → stripL h = h ∧ lineClean h) →
      (∀ p ∈ out, GoodPair p) ∧ (out.map Prod.fst).Nodup := by
  intro lines
  induction lines with
  | nil =>
    intro records header chunks out hok _ hrec hnd hh
    exact flushRecord_invariant hok hrec hnd hh
  | cons line rest ih =>
    intro records header chunks out hok hl hrec hnd hh
    by_cases he : line = []
    · rw [show parseFastaLines (line :: rest) records header chunks =
          parseFastaLines rest records header chunks from by
        simp only [parseFastaLines, if_pos he]] at hok
      exact ih records header chunks out hok
        (fun l h2 => hl l (List.mem_cons_of_mem _ h2)) hrec hnd hh
    · by_cases hgt : line.head? = some '>'
      · rcases hfl : flushRecord records header chunks with e | recs2
        · rw [show parseFastaLines (line :: rest) records header chunks = .error e from by
            simp only [parseFastaLines, if_neg he, if_pos hgt, hfl]] at hok
          exact absurd hok (by simp)
        · rw [show parseFastaLines (line :: rest) records header chunks =
              parseFastaLines rest recs2 (some (stripL (line.drop 1))) [] from by
            simp only [parseFastaLines, if_neg he, if_pos hgt, hfl]] at hok
          have hinv2 := flushRecord_invariant hfl hrec hnd hh
          refine ih recs2 _ [] out hok
            (fun l h2 => hl l (List.mem_cons_of_mem _ h2)) hinv2.1 hinv2.2 ?_
          intro h heq
          injection heq with heq
          refine ⟨by rw [← heq]; exact stripL_idem _, ?_⟩
          intro d hd
          rw [← heq] at hd
          exact hl line (List.mem_cons_self _ _) d
            (List.drop_subset 1 line (stripL_mem hd))
      · rw [show parseFastaLines (line :: rest) records header chunks =
            parseFastaLines rest records header (chunks ++ [stripL line]) from by
          simp only [parseFastaLines, if_neg he, if_neg hgt]] at hok
        exact ih records header _ out hok
          (fun l h2 => hl l (List.mem_cons_of_mem _ h2)) hrec hnd hh

/-- C1 counterexample: a header line consisting of only `>` (or `>`
followed by whitespace) makes `parse_fasta_text` raise
`IndexError: list index out of range` at `header.split()[0]`, rather than
producing a record with an empty identifier. -/
theorem claim_C1_counterexample :
    parse_fasta_text ">" = Except.error indexErrorMsg ∧
    parse_fasta_text "> \t" = Except.error indexErrorMsg :=
  ⟨rfl, rfl⟩

/-- C1 amended: `parse_fasta_text` raises no error on any input whose
header lines each contain a non-whitespace character after the `>` (the
only error is the `IndexError` on an empty or all-whitespace header), and
a record with an empty identifier is never produced. -/
theorem claim_C1_amended (text : String)
    (h : ∀ line ∈ pySplitlines text.data,
      line.head? = some '>' → stripL (line.drop 1) ≠ []) :
    ∃ recs, parse_fasta_text text = .ok recs ∧ ∀ p ∈ recs, p.1 ≠ "" := by
  obtain ⟨out, hout⟩ := parseFastaLines_ok (pySplitlines text.data) [] none [] h (by simp)
  refine ⟨out, hout, ?_⟩
  have hinv := parseFastaLines_invariant (pySplitlines text.data) [] none [] out hout
    (pySplitlines_clean text.data) (by simp) (by simp) (by simp)
  intro p hp he
  exact (hinv.1 p hp).2.2.1 (by rw [he])

/-- C1 witness: a well-formed two-record input parses without error and
with non-empty identifiers. -/
theorem claim_C1_witness :
    ∃ recs, parse_fasta_text ">A description\nMKV\n>B\nQQ" = .ok recs ∧
      ∀ p ∈ recs, p.1 ≠ "" :=
  claim_C1_amended ">A description\nMKV\n>B\nQQ" (by decide)

/-- C9 witness: `--max-length 0` on a one-record input (with its PredHel
equal to the threshold) disables length filtering and prints the disabled
line. -/
theorem claim_C9_witness :
    normalizeMaxLength 0 = none ∧
    "Length filter disabled." ∈ cliOutput [("A", ⟨"A", "A", "MK"⟩)] [("A", 0)] 0 0 "out.fasta" ∧
    (("A", (⟨"A", "A", "MK"⟩ : FastaRecord)) ∈
      (cliResult [("A", ⟨"A", "A", "MK"⟩)] [("A", 0)] 0 0).kept ↔
      ((([("A", 0)] : List (String × Int)).lookup "A") = none ∨
        ∃ p, (([("A", 0)] : List (String × Int)).lookup "A") = some p ∧ p ≤ 0)) := by
  have h := claim_C9 [("A", ⟨"A", "A", "MK"⟩)] [("A", 0)] 0 0 "out.fasta"
    (by decide) (by decide)
  exact ⟨h.1, h.2.2.2.1, h.2.2.1 "A" ⟨"A", "A", "MK"⟩ (by decide)⟩

/-! ### C8: the merger's duplicate-header handling -/

lemma mergeEntriesGo_spec :
    ∀ (entries : List (String × String)) (seen : List String)
      (all : List (String × String)) (total inFile : Nat),
      (entries.map Prod.fst).Nodup →
      mergeEntriesGo entries seen all total inFile =
        (seen ++ (entries.filter (fun e => !decide (e.1 ∈ seen))).map Prod.fst,
         all ++ entries.filter (fun e => !decide (e.1 ∈ seen)),
         total + (entries.filter (fun e => decide (e.1 ∈ seen))).length,
         inFile + (entries.filter (fun e => decide (e.1 ∈ seen))).length) := by
  intro entries
  induction entries with
  | nil => intro seen all total inFile _; simp [mergeEntriesGo]
  | cons hd rest ih =>
    rcases hd with ⟨h, s⟩
    intro seen all total inFile hnd
    simp only [List.map_cons, List.nodup_cons] at hnd
    obtain ⟨hh, hnd2⟩ := hnd
    by_cases hm : h ∈ seen
    · rw [show mergeEntriesGo ((h, s) :: rest) seen all total inFile =
          mergeEntriesGo rest seen all (total + 1) (inFile + 1) from by
        simp only [mergeEntriesGo, if_pos hm]]
      rw [ih seen all (total + 1) (inFile + 1) hnd2]
      have hdec : decide (h ∈ seen) = true := decide_eq_true hm
      simp [List.filter_cons, hdec, Prod.ext_iff]
      all_goals omega
    · rw [show mergeEntriesGo ((h, s) :: rest) seen all total inFile =
          mergeEntriesGo rest (seen ++ [h]) (all ++ [(h, s)]) total inFile from by
        simp only [mergeEntriesGo, if_neg hm]]
      rw [ih (seen ++ [h]) (all ++ [(h, s)]) total inFile hnd2]
      have hset : ∀ e ∈ rest, decide (e.1 ∈ seen ++ [h]) = decide (e.1 ∈ seen) := by
        intro e he
        have hne : e.1 ≠ h := by
          intro hcon
          exact hh (hcon ▸ List.mem_map.mpr ⟨e, he, rfl⟩)
        by_cases hcc : e.1 ∈ seen
        · simp [hcc, List.mem_append]
        · simp [hcc, List.mem_append, hne]
      have hf1 : rest.filter (fun e => !decide (e.1 ∈ seen ++ [h])) =
          rest.filter (fun e => !decide (e.1 ∈ seen)) :=
        List.filter_congr (fun e he => by rw [hset e he])
      have hf2 : rest.filter (fun e => decide (e.1 ∈ seen ++ [h])) =
          rest.filter (fun e => decide (e.1 ∈ seen)) :=
        List.filter_congr hset
      rw [hf1, hf2]
      have hdec : decide (h ∈ seen) = false := decide_eq_false hm
      simp [List.filter_cons, hdec, Prod.ext_iff, List.append_assoc]

lemma filter_key_singleton {l : List (String × String)} (hnd : (l.map Prod.fst).Nodup)
    {h s : String} (hmem : (h, s) ∈ l) :
    l.filter (fun e => decide (e.1 = h)) = [(h, s)] := by
  induction l with
  | nil => cases hmem
  | cons hd rest ih =>
    simp only [List.map_cons, List.nodup_cons] at hnd
    obtain ⟨hh, hnd2⟩ := hnd
    rcases List.mem_cons.mp hmem with he | he
    · rw [← he, List.filter_cons, if_pos (by simp)]
      have hrest : rest.filter (fun e => decide (e.1 = h)) = [] := by
        rw [List.filter_eq_nil_iff]
        intro e hee
        simp only [decide_eq_true_eq]
        intro hcon
        rw [← he] at hh
        exact hh (hcon ▸ List.mem_map.mpr ⟨e, hee, rfl⟩)
      rw [hrest]
    · have hne : hd.1 ≠ h := by
        intro hcon
        obtain ⟨p2, hp2, hfst2⟩ := List.mem_map.mp
          (List.mem_map.mpr ⟨(h, s), he, rfl⟩ : h ∈ rest.map Prod.fst)
        exact hh (hcon ▸ List.mem_map.mpr ⟨(h, s), he, rfl⟩)
      rw [List.filter_cons, if_neg (by simp [hne])]
      exact ih hnd2 he

/-- C8: when the second uploaded file repeats exactly one header of the
first (full header line identity), the merged output keeps only the first
file's entry for that header, the per-file report charges one duplicate to
the second file and none to the first, and the global duplicate count is
one. -/
theorem claim_C8 (n1 n2 c1 c2 : String) (h s1 : String)
    (hnd1 : ((read_fasta c1).map Prod.fst).Nodup)
    (hnd2 : ((read_fasta c2).map Prod.fst).Nodup)
    (hmem1 : (h, s1) ∈ read_fasta c1)
    (hshared : ∀ p ∈ read_fasta c2, (p.1 ∈ (read_fasta c1).map Prod.fst ↔ p.1 = h))
    (hmem2 : h ∈ (read_fasta c2).map Prod.fst)
    (hname : n1 ≠ n2) :
    (merge_uploaded_files [(n1, c1), (n2, c2)]).all_sequences =
      read_fasta c1 ++ (read_fasta c2).filter (fun e => !decide (e.1 = h)) ∧
    (merge_uploaded_files [(n1, c1), (n2, c2)]).all_sequences.filter
      (fun e => decide (e.1 = h)) = [(h, s1)] ∧
    (merge_uploaded_files [(n1, c1), (n2, c2)]).duplicate_count_total = 1 ∧
    (merge_uploaded_files [(n1, c1), (n2, c2)]).file_duplicate_report = [(n1, 0), (n2, 1)] := by
  obtain ⟨p2, hp2, hfst2⟩ := List.mem_map.mp hmem2
  rcases p2 with ⟨h3, s2⟩
  rw [show h3 = h from hfst2] at hp2
  have e1 := mergeEntriesGo_spec (read_fasta c1) [] [] 0 0 hnd1
  have e1f : (read_fasta c1).filter (fun e => !decide (e.1 ∈ ([] : List String))) =
      read_fasta c1 := by
    rw [List.filter_eq_self]
    intro a _
    simp
  have e1f2 : (read_fasta c1).filter (fun e => decide (e.1 ∈ ([] : List String))) = [] := by
    rw [List.filter_eq_nil_iff]
    intro a _
    simp
  rw [e1f, e1f2] at e1
  simp only [List.nil_append, List.length_nil, Nat.add_zero] at e1
  have e2 := mergeEntriesGo_spec (read_fasta c2) ((read_fasta c1).map Prod.fst)
    (read_fasta c1) 0 0 hnd2
  have hcong1 : (read_fasta c2).filter
      (fun e => !decide (e.1 ∈ (read_fasta c1).map Prod.fst)) =
      (read_fasta c2).filter (fun e => !decide (e.1 = h)) := by
    refine List.filter_congr ?_
    intro e he
    congr 1
    exact decide_eq_decide.mpr (hshared e he)
  have hcong2 : (read_fasta c2).filter
      (fun e => decide (e.1 ∈ (read_fasta c1).map Prod.fst)) =
      (read_fasta c2).filter (fun e => decide (e.1 = h)) := by
    refine List.filter_congr ?_
    intro e he
    exact decide_eq_decide.mpr (hshared e he)
  have hsing2 : (read_fasta c2).filter (fun e => decide (e.1 = h)) = [(h, s2)] :=
    filter_key_singleton hnd2 hp2
  rw [hcong1, hcong2, hsing2] at e2
  simp only [List.length_cons, List.length_nil, Nat.zero_add] at e2
  have hrep1 : odInsert ([] : List (String × Nat)) n1 0 = [(n1, 0)] := rfl
  have hrep2 : odInsert [(n1, 0)] n2 1 = [(n1, 0), (n2, 1)] := by
    rw [odInsert_of_not_mem 1 (by
      simp only [List.map_cons, List.map_nil, List.mem_singleton]
      exact fun hcon => hname hcon.symm)]
    rfl
  have step1 : mergeFilesGo [(n1, c1), (n2, c2)] [] [] 0 [] =
      mergeFilesGo [(n2, c2)] ((read_fasta c1).map Prod.fst) (read_fasta c1) 0
        (odInsert [] n1 0) := by
    show (match mergeEntriesGo (read_fasta c1) [] [] 0 0 with
          | (seen2, all2, total2, inFile) =>
            mergeFilesGo [(n2, c2)] seen2 all2 total2 (odInsert [] n1 inFile)) = _
    rw [e1]
  have step2 : mergeFilesGo [(n2, c2)] ((read_fasta c1).map Prod.fst) (read_fasta c1) 0
      (odInsert [] n1 0) =
      ⟨read_fasta c1 ++ (read_fasta c2).filter (fun e => !decide (e.1 = h)), 1,
       odInsert (odInsert [] n1 0) n2 1⟩ := by
    show (match mergeEntriesGo (read_fasta c2) ((read_fasta c1).map Prod.fst)
            (read_fasta c1) 0 0 with
          | (seen2, all2, total2, inFile) =>
            mergeFilesGo [] seen2 all2 total2 (odInsert (odInsert [] n1 0) n2 inFile)) = _
    rw [e2]
    rfl
  have hrun : merge_uploaded_files [(n1, c1), (n2, c2)] =
      ⟨read_fasta c1 ++ (read_fasta c2).filter (fun e => !decide (e.1 = h)), 1,
       [(n1, 0), (n2, 1)]⟩ := by
    show mergeFilesGo [(n1, c1), (n2, c2)] [] [] 0 [] = _
    rw [step1, step2, hrep1, hrep2]
  rw [hrun]
  refine ⟨rfl, ?_, rfl, rfl⟩
  show (read_fasta c1 ++
      (read_fasta c2).filter (fun e => !decide (e.1 = h))).filter
      (fun e => decide (e.1 = h)) = [(h, s1)]
  rw [List.filter_append, filter_key_singleton hnd1 hmem1,
    show ((read_fasta c2).filter (fun e => !decide (e.1 = h))).filter
        (fun e => decide (e.1 = h)) = [] from by
      rw [List.filter_eq_nil_iff]
      intro e he
      have h4 : ¬(e.1 = h) := by simpa using (List.mem_filter.mp he).2
      simp [h4]]
  simp

/-- C8 witness: two concrete files where the second repeats header `>A`. -/
theorem claim_C8_witness :
    (merge_uploaded_files [("f1", ">A\nMK\n>B\nVV"), ("f2", ">A\nZZ")]).all_sequences.filter
      (fun e => decide (e.1 = ">A")) = [(">A", "MK")] ∧
    (merge_uploaded_files [("f1", ">A\nMK\n>B\nVV"), ("f2", ">A\nZZ")]).duplicate_count_total
      = 1 ∧
    (merge_uploaded_files [("f1", ">A\nMK\n>B\nVV"), ("f2", ">A\nZZ")]).file_duplicate_report
      = [("f1", 0), ("f2", 1)] := by
  have hc := claim_C8 "f1" "f2" ">A\nMK\n>B\nVV" ">A\nZZ" ">A" "MK"
    (by decide) (by decide) (by decide) (by decide) (by decide) (by decide)
  exact ⟨hc.2.1, hc.2.2.1, hc.2.2.2⟩

/-! ### C7: the TMHMM line pattern -/

lemma normCRLF_id {cs : List Char} (h : ∀ c ∈ cs, c ≠ '\r') : normCRLF cs false = cs := by
  induction cs with
  | nil => rfl
  | cons c rest ih =>
    have hc : c ≠ '\r' := h c (List.mem_cons_self _ _)
    rw [show normCRLF (c :: rest) false =
        (if (false && (c = '\n') : Bool) = true then normCRLF rest false
         else if c = '\r' then '\r' :: normCRLF rest true
         else c :: normCRLF rest false) from rfl]
    rw [if_neg (by simp), if_neg hc, ih (fun d hd => h d (List.mem_cons_of_mem _ hd))]

lemma splitBoundary_no_bound :
    ∀ (cs : List Char), (∀ c ∈ cs, isLineBoundary c = false) →
      ∀ acc : List Char, acc ≠ [] ∨ cs ≠ [] →
        splitBoundary cs acc = [acc.reverse ++ cs] := by
  intro cs
  induction cs with
  | nil =>
    intro _ acc hor
    have hacc : acc ≠ [] := by
      rcases hor with h1 | h1
      · exact h1
      · exact absurd rfl h1
    simp [splitBoundary, hacc]
  | cons c rest ih =>
    intro h acc _
    rw [show splitBoundary (c :: rest) acc =
        (if isLineBoundary c then acc.reverse :: splitBoundary rest []
         else splitBoundary rest (c :: acc)) from rfl]
    rw [if_neg (by simp [h c (List.mem_cons_self _ _)]),
      ih (fun d hd => h d (List.mem_cons_of_mem _ hd)) (c :: acc)
        (Or.inl (List.cons_ne_nil _ _))]
    simp

lemma pySplitlines_single {cs : List Char} (hne : cs ≠ [])
    (h : ∀ c ∈ cs, isLineBoundary c = false) : pySplitlines cs = [cs] := by
  unfold pySplitlines
  rw [normCRLF_id (fun c hc hr => by
      have := h c hc
      rw [hr] at this
      exact absurd this (by decide)),
    splitBoundary_no_bound cs h [] (Or.inr hne)]
  rfl

lemma find?_range_eq_some {p : Nat → Bool} {idx n : Nat} (hidx : idx < n)
    (hp : p idx = true) (hmin : ∀ j, j < idx → p j = false) :
    (List.range n).find? p = some idx := by
  induction n with
  | zero => omega
  | succ n ih =>
    rw [List.range_succ, List.find?_append]
    by_cases hin : idx < n
    · rw [ih hin]
      rfl
    · have hidxn : idx = n := by omega
      have hnone : (List.range n).find? p = none := by
        rw [List.find?_eq_none]
        intro j hj
        rw [hmin j (by rw [hidxn]; exact List.mem_range.mp hj)]
        simp
      rw [hnone]
      subst hidxn
      simp [List.find?_cons, hp]

lemma take_length_takeWhile (q : Char → Bool) :
    ∀ cs : List Char, cs.take (cs.takeWhile q).length = cs.takeWhile q := by
  intro cs
  induction cs with
  | nil => rfl
  | cons c rest ih =>
    rw [List.takeWhile_cons]
    by_cases hc : q c = true
    · rw [if_pos hc, List.length_cons, List.take_succ_cons, ih]
    · rw [if_neg hc]
      rfl

lemma predHelOccB_elim {cs : List Char} {idx : Nat} (h : predHelOccB cs idx = true) :
    1 ≤ idx ∧ idx + 8 < cs.length ∧ predHelLit.isPrefixOf (cs.drop idx) = true := by
  unfold predHelOccB at h
  rcases hdrop : cs.drop (idx - 1) with _ | ⟨c, rest⟩
  · rw [hdrop] at h
    simp at h
  · rw [hdrop] at h
    have h2 : (decide (1 ≤ idx) && (!asciiWordChar c && predHelLit.isPrefixOf rest &&
        (match rest.drop 8 with
         | [] => false
         | d :: _ => d.isDigit))) = true := h
    rcases hd8 : rest.drop 8 with _ | ⟨d, t⟩
    · rw [hd8] at h2
      simp at h2
    · rw [hd8] at h2
      simp only [Bool.and_eq_true, decide_eq_true_eq, Bool.and_assoc] at h2
      obtain ⟨h1, hw, hpre, hdig⟩ := h2
      have hrest : rest = cs.drop idx := by
        have : cs.drop idx = (cs.drop (idx - 1)).drop 1 := by
          rw [List.drop_drop]
          congr 1
          omega
        rw [this, hdrop]
        rfl
      have hlen1 : cs.length - (idx - 1) = rest.length + 1 := by
        have := congrArg List.length hdrop
        rwa [List.length_drop] at this
      have hlen2 : rest.length - 8 = t.length + 1 := by
        have := congrArg List.length hd8
        rwa [List.length_drop] at this
      exact ⟨h1, by omega, by rw [← hrest]; exact hpre⟩

lemma predHelOccB_false_of_no_lit {cs : List Char} {idx : Nat}
    (h : predHelLit.isPrefixOf (cs.drop idx) = false) : predHelOccB cs idx = false := by
  rw [← Bool.not_eq_true]
  intro hocc
  exact absurd (predHelOccB_elim hocc).2.2 (by rw [h]; decide)

/-- C7 amended: a line of ASCII text (on which the embedded regex classes
`\w` and `\d` agree exactly with CPython's Unicode classes) whose first
character is non-whitespace gets the entry mapping its leading
whitespace-delimited token to the digits of the first occurrence, at or
after the end of that token, of `PredHel=` followed by a digit and
preceded by a non-word character (the regex word boundary); a line — of
arbitrary text, since only the absence of the literal matters — with no
`PredHel=` substring at all contributes no entry. -/
theorem claim_C7_amended (line : String) (idx : Nat) :
    ((∀ c ∈ line.data, c.toNat < 128) →
     (∀ c ∈ line.data, isLineBoundary c = false) →
     leadTok line.data ≠ [] →
     (leadTok line.data).length ≤ idx →
     predHelOccB line.data idx = true →
     (∀ j, (leadTok line.data).length ≤ j → j < idx → predHelOccB line.data j = false) →
     parse_tmhmm_text line =
       [(String.mk (leadTok line.data), Int.ofNat (digitsValAt line.data (idx + 8)))]) ∧
    ((∀ c ∈ line.data, isLineBoundary c = false) →
     (∀ j, j < line.data.length → predHelLit.isPrefixOf (line.data.drop j) = false) →
     parse_tmhmm_text line = []) := by
  constructor
  · intro _hascii hclean htok hle hocc hfirst
    have hne : line.data ≠ [] := by
      intro he
      exact htok (by rw [leadTok, he]; rfl)
    have hsingle : pySplitlines line.data = [line.data] := pySplitlines_single hne hclean
    have hmatch : tmhmmLineMatch line.data =
        some (leadTok line.data, digitsValAt line.data (idx + 8)) := by
      unfold tmhmmLineMatch
      obtain ⟨m2, hm2⟩ : ∃ m2, (leadTok line.data).length = m2 + 1 := by
        rcases hlt : leadTok line.data with _ | ⟨c, r⟩
        · exact absurd hlt htok
        · exact ⟨r.length, rfl⟩
      rw [hm2, List.range_succ_eq_map, List.findSome?_cons]
      have hfind : findPredHel line.data (m2 + 1 - 0) = some idx := by
        unfold findPredHel
        refine find?_range_eq_some ?_ ?_ ?_
        · have := (predHelOccB_elim hocc).2.1
          omega
        · simp only [Nat.sub_zero, Bool.and_eq_true, decide_eq_true_eq]
          exact ⟨by omega, hocc⟩
        · intro j hj
          by_cases hjm : m2 + 1 - 0 ≤ j
          · rw [hfirst j (by omega) hj]
            simp
          · simp only [Nat.sub_zero] at hjm
            simp [hjm]
      rw [hfind]
      simp only [Option.map_some, Nat.sub_zero]
      rw [← hm2]
      simp only [leadTok]
      rw [take_length_takeWhile]
      rfl
    unfold parse_tmhmm_text
    rw [hsingle]
    simp only [List.foldl_cons, List.foldl_nil, hmatch]
    rfl
  · intro hclean hnolit
    by_cases hne : line.data = []
    · unfold parse_tmhmm_text
      rw [hne]
      rfl
    · have hsingle : pySplitlines line.data = [line.data] := pySplitlines_single hne hclean
      have hmatch : tmhmmLineMatch line.data = none := by
        unfold tmhmmLineMatch
        rw [List.findSome?_eq_none_iff]
        intro i _
        have hfind : findPredHel line.data ((leadTok line.data).length - i) = none := by
          unfold findPredHel
          rw [List.find?_eq_none]
          intro j hj
          rw [predHelOccB_false_of_no_lit (hnolit j (List.mem_range.mp hj))]
          simp
        rw [hfind]
        rfl
      unfold parse_tmhmm_text
      rw [hsingle]
      simp only [List.foldl_cons, List.foldl_nil, hmatch]

/-- C7 counterexample: the line `id aPredHel=4` contains `PredHel=4`
strictly after its first token (at index 4, after the token `id` of length
2), yet `parse_tmhmm_text` records no entry, because the character before
`PredHel=` is the word character `a` and the pattern's `\b` fails. -/
theorem claim_C7_counterexample :
    predHelLit.isPrefixOf (("id aPredHel=4" : String).data.drop 4) = true ∧
    (leadTok ("id aPredHel=4" : String).data).length = 2 ∧
    parse_tmhmm_text "id aPredHel=4" = [] := by
  refine ⟨by decide, by decide, ?_⟩
  rfl

/-- C7 witness: `id PredHel=4` yields the entry `id` with count 4, and a
line with no `PredHel=` substring yields nothing. -/
theorem claim_C7_witness :
    parse_tmhmm_text "id PredHel=4" = [("id", (4 : Int))] ∧
    parse_tmhmm_text "idonly" = [] := by
  have h1 := (claim_C7_amended "id PredHel=4" 3).1 (by decide) (by decide) (by decide)
    (by decide) (by decide) (by decide)
  have h2 := (claim_C7_amended "idonly" 0).2 (by decide) (by decide)
  constructor
  · rw [h1]
    rfl
  · exact h2

/-! ### C5: format then parse round trip -/

lemma pyIsSpace_of_boundary {c : Char} (h : isLineBoundary c = true) :
    pyIsSpace c = true := by
  simp only [isLineBoundary, Bool.or_eq_true, decide_eq_true_eq] at h
  rcases h with ((((((((h | h) | h) | h) | h) | h) | h) | h) | h) | h <;> subst h <;> decide

lemma not_boundary_of_not_space {c : Char} (h : pyIsSpace c = false) :
    isLineBoundary c = false := by
  cases hb : isLineBoundary c with
  | false => rfl
  | true => simp [pyIsSpace_of_boundary hb] at h

lemma wrapChunks_join : ∀ (n : Nat) (cs : List Char), cs.length ≤ n →
    joinL (wrapChunks n cs) = cs := by
  intro n
  induction n with
  | zero =>
    intro cs h
    cases cs with
    | nil => rfl
    | cons c r => exact absurd h (by simp)
  | succ n ih =>
    intro cs h
    cases cs with
    | nil => rfl
    | cons c r =>
      show joinL ((c :: r).take FASTA_LINE_WRAP ::
        wrapChunks n ((c :: r).drop FASTA_LINE_WRAP)) = c :: r
      simp only [joinL]
      rw [ih ((c :: r).drop FASTA_LINE_WRAP) (by
        rw [List.length_drop]
        simp only [List.length_cons, FASTA_LINE_WRAP]
        simp only [List.length_cons] at h
        omega)]
      exact List.take_append_drop _ _

lemma wrapChunks_ne_nil : ∀ (n : Nat) (cs l : List Char), l ∈ wrapChunks n cs → l ≠ [] := by
  intro n
  induction n with
  | zero =>
    intro cs l hl
    cases cs with
    | nil => cases hl
    | cons c r => cases hl
  | succ n ih =>
    intro cs l hl
    cases cs with
    | nil => cases hl
    | cons c r =>
      rcases List.mem_cons.mp hl with h1 | h1
      · rw [h1]
        show (c :: r).take FASTA_LINE_WRAP ≠ []
        simp [FASTA_LINE_WRAP]
      · exact ih _ l h1

lemma wrapChunks_subset : ∀ (n : Nat) (cs l : List Char) (c : Char),
    l ∈ wrapChunks n cs → c ∈ l → c ∈ cs := by
  intro n
  induction n with
  | zero =>
    intro cs l c hl
    cases cs with
    | nil => cases hl
    | cons a r => cases hl
  | succ n ih =>
    intro cs l c hl hc
    cases cs with
    | nil => cases hl
    | cons a r =>
      rcases List.mem_cons.mp hl with h1 | h1
      · exact List.take_subset _ _ (h1 ▸ hc)
      · exact List.drop_subset _ _ (ih _ l c h1 hc)

lemma splitBoundary_line_append :
    ∀ (l : List Char), lineClean l → ∀ (rest acc : List Char),
      splitBoundary (l ++ '\n' :: rest) acc = (acc.reverse ++ l) :: splitBoundary rest [] := by
  intro l
  induction l with
  | nil =>
    intro _ rest acc
    show splitBoundary ('\n' :: rest) acc = _
    rw [show splitBoundary ('\n' :: rest) acc =
        (if isLineBoundary '\n' then acc.reverse :: splitBoundary rest []
         else splitBoundary rest ('\n' :: acc)) from rfl, if_pos (by decide)]
    simp
  | cons c l2 ih =>
    intro hcl rest acc
    show splitBoundary (c :: (l2 ++ '\n' :: rest)) acc = _
    rw [show splitBoundary (c :: (l2 ++ '\n' :: rest)) acc =
        (if isLineBoundary c then acc.reverse :: splitBoundary (l2 ++ '\n' :: rest) []
         else splitBoundary (l2 ++ '\n' :: rest) (c :: acc)) from rfl,
      if_neg (by simp [hcl c (List.mem_cons_self _ _)]),
      ih (fun d hd => hcl d (List.mem_cons_of_mem _ hd)) rest (c :: acc)]
    simp

lemma joinNL_no_cr : ∀ (ls : List (List Char)), (∀ l ∈ ls, lineClean l) →
    ∀ c ∈ joinNL ls, c ≠ '\r' := by
  intro ls
  induction ls with
  | nil => intro _ c hc; cases hc
  | cons l ls2 ih =>
    intro h c hc
    rcases List.mem_append.mp (show c ∈ l ++ '\n' :: joinNL ls2 from hc) with h1 | h1
    · intro hcon
      have h2 := h l (List.mem_cons_self _ _) c h1
      rw [hcon] at h2
      exact absurd h2 (by decide)
    · rcases List.mem_cons.mp h1 with h2 | h2
      · rw [h2]; decide
      · exact ih (fun l2 hl2 => h l2 (List.mem_cons_of_mem _ hl2)) c h2

lemma splitBoundary_joinNL : ∀ (ls : List (List Char)), (∀ l ∈ ls, lineClean l) →
    splitBoundary (joinNL ls) [] = ls := by
  intro ls
  induction ls with
  | nil => intro _; rfl
  | cons l ls2 ih =>
    intro h
    show splitBoundary (l ++ '\n' :: joinNL ls2) [] = l :: ls2
    rw [splitBoundary_line_append l (h l (List.mem_cons_self _ _)) (joinNL ls2) [],
      ih (fun l2 hl2 => h l2 (List.mem_cons_of_mem _ hl2))]
    simp

lemma pySplitlines_joinNL {ls : List (List Char)} (h : ∀ l ∈ ls, lineClean l) :
    pySplitlines (joinNL ls) = ls := by
  unfold pySplitlines
  rw [normCRLF_id (joinNL_no_cr ls h)]
  exact splitBoundary_joinNL ls h

lemma parseFastaLines_chunks :
    ∀ (chunkLines : List (List Char)),
      (∀ l ∈ chunkLines, l ≠ [] ∧ l.head? ≠ some '>' ∧ stripL l = l) →
      ∀ (rest : List (List Char)) (records : List (String × FastaRecord))
        (h : List Char) (cs : List (List Char)),
      parseFastaLines (chunkLines ++ rest) records (some h) cs =
        parseFastaLines rest records (some h) (cs ++ chunkLines) := by
  intro chunkLines
  induction chunkLines with
  | nil => intro _ rest records h cs; simp
  | cons l ls ih =>
    intro hc rest records h cs
    obtain ⟨hne, hgt, hstrip⟩ := hc l (List.mem_cons_self _ _)
    show parseFastaLines (l :: (ls ++ rest)) records (some h) cs = _
    rw [show parseFastaLines (l :: (ls ++ rest)) records (some h) cs =
        parseFastaLines (ls ++ rest) records (some h) (cs ++ [stripL l]) from by
      simp only [parseFastaLines, if_neg hne, if_neg hgt]]
    rw [hstrip, ih (fun l2 h2 => hc l2 (List.mem_cons_of_mem _ h2)) rest records h (cs ++ [l])]
    simp [List.append_assoc]

lemma reparse_main :
    ∀ (rs : List FastaRecord) (records out0 : List (String × FastaRecord))
      (header : Option (List Char)) (chunks : List (List Char)),
      flushRecord records header chunks = .ok out0 →
      (∀ r ∈ rs, RecGood r) →
      ((out0.map Prod.fst) ++ rs.map FastaRecord.identifier).Nodup →
      parseFastaLines (flatLines rs) records header chunks = .ok (out0 ++ rs.map pairOf) := by
  intro rs
  induction rs with
  | nil =>
    intro records out0 header chunks hfl _ _
    show flushRecord records header chunks = Except.ok (out0 ++ [])
    rw [hfl, List.append_nil]
  | cons r rs2 ih =>
    intro records out0 header chunks hfl hgood hnd
    obtain ⟨hstrip, hclean, htok, hne, hseq⟩ := hgood r (List.mem_cons_self _ _)
    show parseFastaLines (('>' :: r.header.data) ::
      (wrapSeq r.sequence.data ++ flatLines rs2)) records header chunks = _
    rw [show parseFastaLines (('>' :: r.header.data) ::
        (wrapSeq r.sequence.data ++ flatLines rs2)) records header chunks =
        (match flushRecord records header chunks with
         | .error e => .error e
         | .ok records2 =>
           parseFastaLines (wrapSeq r.sequence.data ++ flatLines rs2) records2
             (some (stripL (('>' :: r.header.data).drop 1))) []) from by
      simp only [parseFastaLines, if_neg (List.cons_ne_nil '>' r.header.data)]
      rw [if_pos (show ('>' :: r.header.data).head? = some '>' from rfl)], hfl]
    show parseFastaLines (wrapSeq r.sequence.data ++ flatLines rs2) out0
      (some (stripL r.header.data)) [] = _
    rw [hstrip]
    rw [parseFastaLines_chunks (wrapSeq r.sequence.data)
      (by
        intro l hl
        refine ⟨wrapChunks_ne_nil _ _ l hl, ?_, ?_⟩
        · intro hcon
          rcases l with _ | ⟨c, t⟩
          · exact absurd hcon (by simp)
          · have hcg : c = '>' := by
              simpa using hcon
            have := (hseq c (wrapChunks_subset _ _ _ c hl (List.mem_cons_self _ _))).2
            exact this hcg
        · exact stripL_of_all_nonspace (fun c hc =>
            (hseq c (wrapChunks_subset _ _ _ c hl hc)).1))
      (flatLines rs2) out0 r.header.data []]
    simp only [List.nil_append]
    have hfresh : r.identifier ∉ out0.map Prod.fst := by
      rw [List.nodup_append] at hnd
      intro hcon
      exact hnd.2.2 hcon (List.mem_cons_self _ _)
    have hflush2 : flushRecord out0 (some r.header.data) (wrapSeq r.sequence.data) =
        .ok (out0 ++ [pairOf r]) := by
      have h0 : flushRecord out0 (some r.header.data) (wrapSeq r.sequence.data) =
          match firstTok r.header.data with
          | [] => Except.error indexErrorMsg
          | c :: ts =>
            Except.ok (odInsert out0 (String.mk (c :: ts))
              ⟨String.mk (c :: ts), String.mk r.header.data,
               String.mk (removeSpaceCR (joinL (wrapSeq r.sequence.data)))⟩) := rfl
      rcases hid : r.identifier.data with _ | ⟨c, ts⟩
      · exact absurd hid hne
      · rw [h0, htok, hid]
        have hjoin : joinL (wrapSeq r.sequence.data) = r.sequence.data :=
          wrapChunks_join _ _ le_rfl
        have hrem : removeSpaceCR r.sequence.data = r.sequence.data := by
          rw [removeSpaceCR, List.filter_eq_self]
          intro a ha
          have hsp := (hseq a ha).1
          have ha1 : a ≠ ' ' := by
            intro hcon
            rw [hcon] at hsp
            exact absurd hsp (by decide)
          have ha2 : a ≠ '\r' := by
            intro hcon
            rw [hcon] at hsp
            exact absurd hsp (by decide)
          simp [ha1, ha2]
        have hrec : (⟨String.mk (c :: ts), String.mk r.header.data,
            String.mk (removeSpaceCR (joinL (wrapSeq r.sequence.data)))⟩ : FastaRecord) = r := by
          rw [hjoin, hrem, ← hid]
        have hkey : String.mk (c :: ts) = r.identifier := by
          rw [← hid]
        show Except.ok (odInsert out0 (String.mk (c :: ts))
          ⟨String.mk (c :: ts), String.mk r.header.data,
           String.mk (removeSpaceCR (joinL (wrapSeq r.sequence.data)))⟩) =
          Except.ok (out0 ++ [pairOf r])
        rw [hrec, hkey, odInsert_of_not_mem r hfresh]
        rfl
    rw [ih out0 (out0 ++ [pairOf r]) (some r.header.data) (wrapSeq r.sequence.data)
      hflush2 (fun r2 h2 => hgood r2 (List.mem_cons_of_mem _ h2))
      (by
        simp only [List.map_append, List.map_cons] at hnd ⊢
        simpa [pairOf, List.append_assoc] using hnd)]
    simp [List.append_assoc]

lemma mem_flatLines : ∀ (rs : List FastaRecord) (l : List Char),
    l ∈ flatLines rs ↔ ∃ r ∈ rs, l ∈ recordLines r := by
  intro rs
  induction rs with
  | nil => intro l; simp [flatLines]
  | cons r rs2 ih =>
    intro l
    show l ∈ recordLines r ++ flatLines rs2 ↔ _
    rw [List.mem_append, ih l]
    constructor
    · rintro (h1 | ⟨r2, h2, h3⟩)
      · exact ⟨r, List.mem_cons_self _ _, h1⟩
      · exact ⟨r2, List.mem_cons_of_mem _ h2, h3⟩
    · rintro ⟨r2, h2, h3⟩
      rcases List.mem_cons.mp h2 with h4 | h4
      · exact Or.inl (h4 ▸ h3)
      · exact Or.inr ⟨r2, h4, h3⟩

/-- C5 amended: for a collection parsed from text whose sequences consist
only of non-whitespace characters other than `>` (in particular ordinary
residue letters), formatting with `format_fasta` and re-parsing with
`parse_fasta_text` reproduces the collection exactly — identifiers,
headers and sequences. -/
theorem claim_C5_amended (text : String) (recs : List (String × FastaRecord))
    (hok : parse_fasta_text text = .ok recs)
    (hseq : ∀ p ∈ recs, ∀ c ∈ (p : String × FastaRecord).2.sequence.data,
      pyIsSpace c = false ∧ c ≠ '>') :
    parse_fasta_text (format_fasta (recs.map Prod.snd)) = .ok recs := by
  have hinv := parseFastaLines_invariant (pySplitlines text.data) [] none [] recs hok
    (pySplitlines_clean text.data) (by simp) (by simp) (by simp)
  have hgood : ∀ r ∈ recs.map Prod.snd, RecGood r := by
    intro r hr
    obtain ⟨p, hp, hpe⟩ := List.mem_map.mp hr
    obtain ⟨hpid, hfst, hne2, hstrip2, hclean2⟩ := hinv.1 p hp
    subst hpe
    refine ⟨hstrip2, hclean2, ?_, ?_, hseq p hp⟩
    · rw [hpid, ← hfst]
    · rw [hpid]
      exact fun hcon => hne2 hcon
  have hids : (recs.map Prod.snd).map FastaRecord.identifier = recs.map Prod.fst := by
    rw [List.map_map]
    refine List.map_congr_left ?_
    intro p hp
    exact (hinv.1 p hp).1
  have hpair : (recs.map Prod.snd).map pairOf = recs := by
    rw [List.map_map]
    conv_rhs => rw [← List.map_id recs]
    refine List.map_congr_left ?_
    intro p hp
    exact Prod.ext ((hinv.1 p hp).1) rfl
  have hflat : ∀ l ∈ flatLines (recs.map Prod.snd), lineClean l := by
    intro l hl
    obtain ⟨r, hr, hlr⟩ := (mem_flatLines _ l).mp hl
    obtain ⟨-, hclean2, -, -, hseq2⟩ := hgood r hr
    rcases List.mem_cons.mp hlr with h1 | h1
    · intro c hc
      rw [h1] at hc
      rcases List.mem_cons.mp hc with h2 | h2
      · rw [h2]; decide
      · exact hclean2 c h2
    · intro c hc
      exact not_boundary_of_not_space
        (hseq2 c (wrapChunks_subset _ _ _ c h1 hc)).1
  show parseFastaLines (pySplitlines (format_fasta (recs.map Prod.snd)).data) [] none []
    = .ok recs
  rw [show (format_fasta (recs.map Prod.snd)).data =
      joinNL (flatLines (recs.map Prod.snd)) from rfl,
    pySplitlines_joinNL hflat,
    reparse_main (recs.map Prod.snd) [] [] none [] rfl hgood
      (by
        simp only [List.map_nil, List.nil_append]
        rw [hids]
        exact hinv.2)]
  rw [hpair]
  rfl

/-- C5 counterexample: a parsed sequence with a tab at position 59 (the
claim allows arbitrary parsed collections, and internal tabs survive
parsing) loses the tab when the 60-column wrap puts it at the end of a
line and re-parsing strips it: identifiers and headers survive the round
trip, the sequence does not. -/
theorem claim_C5_counterexample :
    parse_fasta_text ">A\nXXXXXXXXXXXXXXXXXXXXXXXXXXXXXXXXXXXXXXXXXXXXXXXXXXXXXXXXXXX\tZ" =
      Except.ok [("A", ⟨"A", "A", "XXXXXXXXXXXXXXXXXXXXXXXXXXXXXXXXXXXXXXXXXXXXXXXXXXXXXXXXXXX\tZ"⟩)] ∧
    parse_fasta_text (format_fasta [⟨"A", "A", "XXXXXXXXXXXXXXXXXXXXXXXXXXXXXXXXXXXXXXXXXXXXXXXXXXXXXXXXXXX\tZ"⟩]) =
      Except.ok [("A", ⟨"A", "A", "XXXXXXXXXXXXXXXXXXXXXXXXXXXXXXXXXXXXXXXXXXXXXXXXXXXXXXXXXXXZ"⟩)] ∧
    ("XXXXXXXXXXXXXXXXXXXXXXXXXXXXXXXXXXXXXXXXXXXXXXXXXXXXXXXXXXX\tZ" : String) ≠ "XXXXXXXXXXXXXXXXXXXXXXXXXXXXXXXXXXXXXXXXXXXXXXXXXXXXXXXXXXXZ" := by
  refine ⟨rfl, rfl, ?_⟩
  decide

/-- C5 witness: the spec's own example round-trips exactly. -/
theorem claim_C5_witness :
    parse_fasta_text (format_fasta ([("seq1", ⟨"seq1", "seq1 desc", "MKVLLA"⟩)].map Prod.snd)) =
      Except.ok [("seq1", ⟨"seq1", "seq1 desc", "MKVLLA"⟩)] :=
  claim_C5_amended ">seq1 desc\nMKV\nLLA\n" [("seq1", ⟨"seq1", "seq1 desc", "MKVLLA"⟩)]
    (by rfl) (by decide)

end TMSuite
